import Mathlib

/-!
Verification of the selective configuration-patching engine of
`update_prices.py` (portfolio price updater).

The document text is modelled as a list of tokens: record markers
(`- ticker: X` lines), numeric fields (`name: 12.345`), the quoted
`last_update` date, and opaque text.  The Python code locates and rewrites
values with regular expressions; the patterns actually used are

  `usd_to_eur:\s*([\d.]+)`                              (document-wide field)
  `(last_update:\s*")[^"]*(")`                           (date field)
  `(- ticker: T\s+.*?FIELD:\s*)([\d.]+)`  with DOTALL    (record-scoped field)

On the tokenized document these have exact counterparts: the record-scoped
pattern starts at the first `- ticker: T` marker and, because `.*?` is lazy
and unbounded under DOTALL, extends to the FIRST field named FIELD anywhere
at or after that marker — crossing into later records' blocks when the
record's own block lacks the field.  `re.sub` replaces every non-overlapping
match, which the scan below reproduces (match state resets after each
replaced field).  Numeric literals are modelled as exact rationals (the
parsed value of the literal); Python's fixed-precision `%.Nf` formatting is
modelled by round-half-even at N decimal digits.
-/

namespace UpdatePrices

/-- One token of the document text. -/
inductive Token where
  | marker (ticker : String)
  | field (name : String) (lit : ℚ)
  | date (s : String)
  | text (s : String)
deriving DecidableEq

/-- The shape of a token: everything except the mutable literal payloads. -/
inductive Sh where
  | marker (ticker : String)
  | field (name : String)
  | date
  | text (s : String)
deriving DecidableEq

/-- Erase the mutable payload of a token. -/
def Token.shape : Token → Sh
  | .marker t => .marker t
  | .field n _ => .field n
  | .date _ => .date
  | .text s => .text s

/-- First occurrence of `fname:\s*([\d.]+)` in the document
(`re.search(r"usd_to_eur:\s*([\d.]+)", content)`, line 117). -/
def searchF (fname : String) : List Token → Option ℚ
  | [] => none
  | .field n v :: ts => if n == fname then some v else searchF fname ts
  | _ :: ts => searchF fname ts

/-- Replace every occurrence of the field literal
(`re.sub(r"(usd_to_eur:\s*)[\d.]+", ...)`, lines 121-123). -/
def subF (fname : String) (v : ℚ) (l : List Token) : List Token :=
  l.map fun t => match t with
    | .field n w => if n == fname then .field n v else .field n w
    | t => t

/-- Scan for `- ticker: T\s+.*?fname:\s*([\d.]+)` (DOTALL, lazy): the state
records whether a `- ticker: T` marker has been passed without an `fname`
field yet; the first `fname` field in that state is the match (lines
150-151, 177-178, 195-196). -/
def searchTFGo (ticker fname : String) : Bool → List Token → Option ℚ
  | _, [] => none
  | inM, .marker m :: ts => searchTFGo ticker fname (inM || m == ticker) ts
  | inM, .field n v :: ts =>
      if inM && n == fname then some v else searchTFGo ticker fname inM ts
  | inM, _ :: ts => searchTFGo ticker fname inM ts

/-- `re.search` of the record-scoped pattern: first match's numeric group. -/
def searchTF (ticker fname : String) (l : List Token) : Option ℚ :=
  searchTFGo ticker fname false l

/-- `re.sub` of the record-scoped pattern: every non-overlapping match's
numeric literal is replaced; the match state resets after a replacement
(the scan resumes after the matched field), lines 156-161, 182-187, 200-205. -/
def subTFGo (ticker fname : String) (v : ℚ) : Bool → List Token → List Token
  | _, [] => []
  | inM, .marker m :: ts => .marker m :: subTFGo ticker fname v (inM || m == ticker) ts
  | inM, .field n w :: ts =>
      if inM && n == fname then .field n v :: subTFGo ticker fname v false ts
      else .field n w :: subTFGo ticker fname v inM ts
  | inM, t :: ts => t :: subTFGo ticker fname v inM ts

def subTF (ticker fname : String) (v : ℚ) (l : List Token) : List Token :=
  subTFGo ticker fname v false l

/-- Index of the record-scoped match, computed on shapes only. -/
def shTFGo (ticker fname : String) : Bool → List Sh → Option Nat
  | _, [] => none
  | inM, .marker m :: ts => (shTFGo ticker fname (inM || m == ticker) ts).map Nat.succ
  | inM, .field n :: ts =>
      if inM && n == fname then some 0 else (shTFGo ticker fname inM ts).map Nat.succ
  | inM, _ :: ts => (shTFGo ticker fname inM ts).map Nat.succ

/-- Absolute index of the field token the record-scoped pattern matches. -/
def tIdx (ticker fname : String) (l : List Token) : Option Nat :=
  shTFGo ticker fname false (l.map Token.shape)

/-- Index of the first field named `fname`, on shapes. -/
def shFGo (fname : String) : List Sh → Option Nat
  | [] => none
  | .field n :: ts => if n == fname then some 0 else (shFGo fname ts).map Nat.succ
  | _ :: ts => (shFGo fname ts).map Nat.succ

/-- The literal stored at index `i`, when that token is a field. -/
def litAt (l : List Token) (i : Nat) : Option ℚ :=
  match l.get? i with
  | some (.field _ v) => some v
  | _ => none

/-- Replace the literal of the field token at index `i`. -/
def modLit (v : ℚ) : Nat → List Token → List Token
  | _, [] => []
  | 0, .field n _ :: ts => .field n v :: ts
  | 0, t :: ts => t :: ts
  | i + 1, t :: ts => t :: modLit v i ts

/-- Number of `- ticker: t` markers in the document. -/
def countM (t : String) : List Token → Nat
  | [] => 0
  | .marker m :: ts => (if m == t then 1 else 0) + countM t ts
  | _ :: ts => countM t ts

/-- Round half to even (ties-to-even), the rounding of Python float
formatting. -/
def rhe (x : ℚ) : ℤ :=
  let f := ⌊x⌋
  let r := x - (f : ℚ)
  if r < 1/2 then f else if 1/2 < r then f + 1 else if 2 ∣ f then f else f + 1

/-- The exact value denoted by `x` formatted at `p` decimal digits
(the value a `%.pf` substitution stores in the document). -/
def roundTo (p : Nat) (x : ℚ) : ℚ := (rhe (x * 10 ^ p) : ℚ) / 10 ^ p

/-- Left-pad with zeros to width `w`. -/
def padZeros (s : String) (w : Nat) : String :=
  String.mk (List.replicate (w - s.length) '0') ++ s

/-- Python `%.pf` fixed-point rendering (p ≥ 1). -/
def fmtFixed (p : Nat) (x : ℚ) : String :=
  let n := rhe (x * 10 ^ p)
  let m := n.natAbs
  let s := Nat.repr (m / 10 ^ p) ++ "." ++ padZeros (Nat.repr (m % 10 ^ p)) p
  if x < 0 then "-" ++ s else s

/-- Python `{:+.1f}` rendering. -/
def fmtPlus1 (x : ℚ) : String :=
  if x < 0 then fmtFixed 1 x else "+" ++ fmtFixed 1 x

/-- Change-log line for a price change (line 162-165); the percentage is
guarded by `old_price > 0`. -/
def mkPriceChange (ticker : String) (oldP newP : ℚ) : String :=
  let pct := if oldP > 0 then (newP - oldP) / oldP * 100 else 0
  ticker ++ ": €" ++ fmtFixed 2 oldP ++ " -> €" ++ fmtFixed 2 newP ++
    " (" ++ fmtPlus1 pct ++ "%)"

/-- Change-log line for an analyst target change (lines 188-190, 206-208);
note: no percentage figure. -/
def mkTargetChange (ticker kind : String) (oldP newP : ℚ) : String :=
  ticker ++ " " ++ kind ++ ": €" ++ fmtFixed 2 oldP ++ " -> €" ++ fmtFixed 2 newP

/-- Change-log line for the exchange-rate change (line 124). -/
def mkRateChange (oldR newR : ℚ) : String :=
  "USD/EUR: " ++ fmtFixed 4 oldR ++ " -> " ++ fmtFixed 4 newR

/-- Tolerance for monetary fields (`> 0.01`, lines 155, 181, 199). -/
def monTol : ℚ := 1/100

/-- Tolerance for the exchange rate (`> 0.001`, line 120). -/
def rateTol : ℚ := 1/1000

/-- One position entry of the parsed YAML (`pos.get` defaults applied). -/
structure Position where
  ticker : String
  yahoo_ticker : String
  currency : String
  is_open : Bool
deriving DecidableEq

/-- Analyst target data for one external ticker. -/
structure TargetData where
  high : Option ℚ
  low : Option ℚ
deriving DecidableEq

/-- The candidate new current price for a position: observed price, converted
when `currency == "USD"` (lines 145-147). -/
def priceCand (prices : List (String × ℚ)) (usd_to_eur : ℚ) (pos : Position) :
    Option ℚ :=
  (prices.lookup pos.yahoo_ticker).map fun raw =>
    if pos.currency == "USD" then raw * usd_to_eur else raw

/-- The candidate analyst high: `target_data.get("high")` with Python
truthiness (`if high_raw:`), converted when needed (lines 168-176). -/
def highCand (targets : Option (List (String × TargetData))) (usd_to_eur : ℚ)
    (pos : Position) : Option ℚ :=
  match targets with
  | none => none
  | some tm =>
    match tm.lookup pos.yahoo_ticker with
    | none => none
    | some td =>
      match td.high with
      | none => none
      | some h =>
        if h = 0 then none
        else some (if pos.currency == "USD" then h * usd_to_eur else h)

/-- The candidate analyst low (`if low_raw:`, lines 172, 193-194). -/
def lowCand (targets : Option (List (String × TargetData))) (usd_to_eur : ℚ)
    (pos : Position) : Option ℚ :=
  match targets with
  | none => none
  | some tm =>
    match tm.lookup pos.yahoo_ticker with
    | none => none
    | some td =>
      match td.low with
      | none => none
      | some h =>
        if h = 0 then none
        else some (if pos.currency == "USD" then h * usd_to_eur else h)

/-- The field-patch block the source repeats for each refreshable field
(lines 150-161 and its two copies): search the record-scoped pattern, parse
the old literal, substitute at 5 decimals when the delta exceeds the
tolerance.  Returns the mutated text and the old value when a substitution
happened, `none` otherwise. -/
def patchTF (ticker fname : String) (cand : ℚ) (c : List Token) :
    Option (List Token × ℚ) :=
  match searchTF ticker fname c with
  | none => none
  | some old =>
    if |old - cand| > monTol then some (subTF ticker fname (roundTo 5 cand) c, old)
    else none

/-- Mutable state of one run: document text plus the two change lists. -/
structure St where
  content : List Token
  changes : List String
  targetChanges : List String
deriving DecidableEq

/-- The current-price block of the per-position loop (lines 144-165). -/
def priceStep (prices : List (String × ℚ)) (usd_to_eur : ℚ) (pos : Position)
    (st : St) : St :=
  match priceCand prices usd_to_eur pos with
  | none => st
  | some cand =>
    match patchTF pos.ticker "current_price_eur" cand st.content with
    | none => st
    | some (c, old) =>
      ⟨c, st.changes ++ [mkPriceChange pos.ticker old cand], st.targetChanges⟩

/-- The analyst-high block of the per-position loop (lines 174-190). -/
def highStep (targets : Option (List (String × TargetData))) (usd_to_eur : ℚ)
    (pos : Position) (st : St) : St :=
  match highCand targets usd_to_eur pos with
  | none => st
  | some cand =>
    match patchTF pos.ticker "target_high_eur" cand st.content with
    | none => st
    | some (c, old) =>
      ⟨c, st.changes, st.targetChanges ++ [mkTargetChange pos.ticker "high" old cand]⟩

/-- The analyst-low block of the per-position loop (lines 192-208). -/
def lowStep (targets : Option (List (String × TargetData))) (usd_to_eur : ℚ)
    (pos : Position) (st : St) : St :=
  match lowCand targets usd_to_eur pos with
  | none => st
  | some cand =>
    match patchTF pos.ticker "target_low_eur" cand st.content with
    | none => st
    | some (c, old) =>
      ⟨c, st.changes, st.targetChanges ++ [mkTargetChange pos.ticker "low" old cand]⟩

/-- The body of the per-position loop (lines 133-208): eligibility guard,
then the three field-patch blocks in source order. -/
def processPos (prices : List (String × ℚ))
    (targets : Option (List (String × TargetData))) (usd_to_eur : ℚ)
    (st : St) (pos : Position) : St :=
  if pos.yahoo_ticker == "" || !pos.is_open then st
  else lowStep targets usd_to_eur pos
    (highStep targets usd_to_eur pos (priceStep prices usd_to_eur pos st))

/-- The document-wide exchange-rate patch (lines 117-124). -/
def rateStep (usd_to_eur : ℚ) (c : List Token) : List Token × List String :=
  match searchF "usd_to_eur" c with
  | none => (c, [])
  | some old =>
    if |old - usd_to_eur| > rateTol then
      (subF "usd_to_eur" (roundTo 4 usd_to_eur) c, [mkRateChange old usd_to_eur])
    else (c, [])

/-- Unconditional overwrite of the `last_update: "..."` date (lines 127-130). -/
def dateTok (today : String) : Token → Token
  | .date _ => .date today
  | t => t

def dateStep (today : String) (l : List Token) : List Token :=
  l.map (dateTok today)

/-- Result of `update_yaml_file`: final text, the two change lists, and
whether the text was committed to disk. -/
structure UpdateOut where
  content : List Token
  changes : List String
  targetChanges : List String
  written : Bool
deriving DecidableEq

/-- `update_yaml_file` (lines 101-228): rate patch, date overwrite, the
per-position loop, and the final write guard
(`if not dry_run and content != original_content`, line 224). -/
def update_yaml_file (doc : List Token) (positions : List Position)
    (prices : List (String × ℚ)) (usd_to_eur : ℚ)
    (targets : Option (List (String × TargetData)))
    (dry_run : Bool) (today : String) : UpdateOut :=
  let r := rateStep usd_to_eur doc
  let c2 := dateStep today r.1
  let st := positions.foldl (processPos prices targets usd_to_eur) ⟨c2, r.2, []⟩
  ⟨st.content, st.changes, st.targetChanges, !dry_run && decide (st.content ≠ doc)⟩

/-- The change report printed to stdout (lines 210-221): the price section
prints a header plus indented lines, or a single no-changes line; the target
section prints a header plus indented lines, or nothing at all. -/
def report (changes targetChanges : List String) : List String :=
  (if changes.isEmpty then ["No significant price changes"]
   else "Price changes:" :: changes.map (fun s => "  " ++ s)) ++
  (if targetChanges.isEmpty then []
   else "Analyst target changes:" :: targetChanges.map (fun s => "  " ++ s))

/-- `fetch_stock_prices` (lines 43-61): one price per distinct ticker the
source has data for.  `priceSource` models the per-ticker fetch (`none` is a
failed or empty fetch). -/
def fetchPrices (priceSource : String → Option ℚ) (tickers : List String) :
    List (String × ℚ) :=
  tickers.dedup.filterMap fun t => (priceSource t).map fun v => (t, v)

/-- The exit status of `main` (lines 231-299): 1 when the document is
missing, when no open position with a yahoo ticker exists, when the rate
fetch raised, or when no price could be fetched; 0 otherwise. -/
def mainExit (yamlExists : Bool) (positions : List Position)
    (rateRes : Option ℚ) (priceSource : String → Option ℚ) : Nat :=
  if !yamlExists then 1
  else
    let openPositions := positions.filter fun p => p.is_open && !(p.yahoo_ticker == "")
    if openPositions.isEmpty then 1
    else
      match rateRes with
      | none => 1
      | some _ =>
        let yahooTickers := openPositions.map (·.yahoo_ticker)
        if (fetchPrices priceSource yahooTickers).isEmpty then 1 else 0

/-! Notions used to state idempotence. -/

/-- The three refreshable record-scoped field names. -/
def fieldNames : List String :=
  ["current_price_eur", "target_high_eur", "target_low_eur"]

/-- Match index over a shape list. -/
def sIdx (t f : String) (s : List Sh) : Option Nat := shTFGo t f false s

/-- The record markers of a document, in order. -/
def markersOf (l : List Token) : List String :=
  l.filterMap fun tok => match tok with | .marker m => some m | _ => none

/-- Every record marker occurs at most once. -/
def markersUnique (l : List Token) : Prop := (markersOf l).Nodup

/-- Marker count over shapes. -/
def countMs (t : String) : List Sh → Nat
  | [] => 0
  | .marker m :: ts => (if m == t then 1 else 0) + countMs t ts
  | _ :: ts => countMs t ts

/-- Distinct positions never target the same field token: for each
refreshable field name, their match indices (computed on the document's
shape) differ whenever both exist. -/
def patchDisjoint (doc : List Token) (positions : List Position) : Prop :=
  positions.Pairwise fun p q => ∀ f ∈ fieldNames,
    sIdx p.ticker f (doc.map Token.shape) = none ∨
    sIdx q.ticker f (doc.map Token.shape) = none ∨
    sIdx p.ticker f (doc.map Token.shape) ≠ sIdx q.ticker f (doc.map Token.shape)

/-- All date tokens carry today's date. -/
def datesAre (today : String) (l : List Token) : Prop :=
  ∀ j s, l.get? j = some (Token.date s) → s = today

/-- The stored value the record-scoped search finds for one field is within
the monetary tolerance of its candidate. -/
def fieldOk (l : List Token) (t f : String) (cand : ℚ) : Prop :=
  ∀ old, searchTF t f l = some old → ¬(|old - cand| > monTol)

/-- The (field name, candidate value) pairs a position's loop body patches. -/
def posCands (prices : List (String × ℚ))
    (targets : Option (List (String × TargetData))) (u : ℚ) (pos : Position) :
    List (String × ℚ) :=
  ((priceCand prices u pos).map fun c => ("current_price_eur", c)).toList ++
  ((highCand targets u pos).map fun c => ("target_high_eur", c)).toList ++
  ((lowCand targets u pos).map fun c => ("target_low_eur", c)).toList

/-- A document on which a run makes no change: the rate field is within the
rate tolerance, all dates already read today, and every eligible position's
candidate is within the monetary tolerance of the value its search finds. -/
def Settled (positions : List Position) (prices : List (String × ℚ))
    (targets : Option (List (String × TargetData))) (u : ℚ) (today : String)
    (l : List Token) : Prop :=
  (∀ old, searchF "usd_to_eur" l = some old → ¬(|old - u| > rateTol)) ∧
  datesAre today l ∧
  ∀ pos ∈ positions, (pos.yahoo_ticker == "" || !pos.is_open) = false →
    ∀ fc ∈ posCands prices targets u pos, fieldOk l pos.ticker fc.1 fc.2

/-! Concrete documents and positions used to exercise the model. -/

/-- A document where record A's block contains no `current_price_eur` field:
A's marker is directly followed by B's marker, and the only
`current_price_eur` field belongs to B's block. -/
def docAB : List Token :=
  [.marker "A", .marker "B", .field "current_price_eur" 10]

def posA : Position := ⟨"A", "YA", "EUR", true⟩
def posB : Position := ⟨"B", "YB", "EUR", true⟩
def posBClosed : Position := ⟨"B", "YB", "EUR", false⟩

/-- Two-record document for the currency-conversion scenario: a USD record F
and a EUR record B, each with its own `current_price_eur` field. -/
def docFB : List Token :=
  [.marker "F", .field "current_price_eur" 50,
   .marker "B", .field "current_price_eur" 50]

def posF : Position := ⟨"F", "YF", "USD", true⟩

/-- Two-record document carrying all three refreshable fields per block: a
USD record F and a EUR record B. -/
def docFBT : List Token :=
  [.marker "F", .field "current_price_eur" 50, .field "target_high_eur" 50,
   .field "target_low_eur" 50,
   .marker "B", .field "current_price_eur" 50, .field "target_high_eur" 50,
   .field "target_low_eur" 50]

/-- One-record document with a price and an analyst-high field. -/
def docT : List Token :=
  [.marker "T", .field "current_price_eur" 10, .field "target_high_eur" 10]

def posT : Position := ⟨"T", "YT", "EUR", true⟩

/-- One-record document that also carries the document-wide rate field. -/
def docW : List Token :=
  [.marker "A", .field "current_price_eur" 10, .field "usd_to_eur" 1]

/-- First run on `docAB` with both A and B open: A's patch lands in B's
block (A's block has no price field), then B patches the same token back. -/
def run1AB : UpdateOut :=
  update_yaml_file docAB [posA, posB] [("YA", 100), ("YB", 50)] 1 none false "d"

/-- Second run with the identical observation set. -/
def run2AB : UpdateOut :=
  update_yaml_file run1AB.content [posA, posB] [("YA", 100), ("YB", 50)] 1 none false "d"

/-- Run on `docAB` where B is closed: A's patch still rewrites the field in
B's block. -/
def run1C3 : UpdateOut :=
  update_yaml_file docAB [posA, posBClosed] [("YA", 70), ("YB", 10)] 1 none false "d"

/-- Run producing one analyst-target change and no price change. -/
def run1C8 : UpdateOut :=
  update_yaml_file docT [posT] [] 1 (some [("YT", ⟨some 20, none⟩)]) false "d"

end UpdatePrices

namespace UpdatePrices

/-! Helper lemmas. -/

/-- Evaluation rule for `fmtFixed` on a nonnegative value whose scaled
rounding is known. -/
theorem fmtFixed_eval (p : Nat) (x : ℚ) (n : ℤ) (hn : rhe (x * 10 ^ p) = n)
    (hx : ¬ x < 0) :
    fmtFixed p x =
      Nat.repr (n.natAbs / 10 ^ p) ++ "." ++ padZeros (Nat.repr (n.natAbs % 10 ^ p)) p := by
  simp only [fmtFixed, hn, if_neg hx]

/-- `rhe` of an integer is that integer. -/
theorem rhe_intCast (n : ℤ) : rhe (n : ℚ) = n := by
  simp [rhe, Int.floor_intCast]

/-- When the scan finds no match, the substitution is the identity. -/
theorem subTFGo_eq_of_none (t f : String) (v : ℚ) :
    ∀ (l : List Token) (inM : Bool),
      shTFGo t f inM (l.map Token.shape) = none → subTFGo t f v inM l = l := by
  intro l
  induction l with
  | nil => intro inM _; rfl
  | cons tok ts ih =>
    intro inM h
    cases tok with
    | marker m =>
      simp only [List.map_cons, Token.shape, shTFGo, Option.map_eq_none'] at h
      simp [subTFGo, ih _ h]
    | field n w =>
      simp only [List.map_cons, Token.shape, shTFGo] at h
      by_cases hc : (inM && n == f) = true
      · rw [if_pos hc] at h; exact absurd h (by simp)
      · rw [if_neg hc] at h
        rw [Option.map_eq_none'] at h
        simp [subTFGo, hc, ih _ h]
    | date s =>
      simp only [List.map_cons, Token.shape, shTFGo, Option.map_eq_none'] at h
      simp [subTFGo, ih _ h]
    | text s =>
      simp only [List.map_cons, Token.shape, shTFGo, Option.map_eq_none'] at h
      simp [subTFGo, ih _ h]

/-- With no marker for `t` in the list and the scan out of a match, the
substitution is the identity. -/
theorem subTFGo_eq_of_noMarker (t f : String) (v : ℚ) :
    ∀ l : List Token, countM t l = 0 → subTFGo t f v false l = l := by
  intro l
  induction l with
  | nil => intro _; rfl
  | cons tok ts ih =>
    intro h
    cases tok with
    | marker m =>
      have hm : (m == t) = false := by
        cases hm : (m == t)
        · rfl
        · simp [countM, hm] at h
      have hts : countM t ts = 0 := by simpa [countM, hm] using h
      simp [subTFGo, hm, ih hts]
    | field n w =>
      have hts : countM t ts = 0 := by simpa [countM] using h
      simp [subTFGo, ih hts]
    | date s =>
      have hts : countM t ts = 0 := by simpa [countM] using h
      simp [subTFGo, ih hts]
    | text s =>
      have hts : countM t ts = 0 := by simpa [countM] using h
      simp [subTFGo, ih hts]

/-- Key modify lemma: when the marker for `t` occurs at most once (and not
at all when the scan starts inside a match), the substitution rewrites
exactly the literal at the match index. -/
theorem subTFGo_eq_modLit (t f : String) (v : ℚ) :
    ∀ (l : List Token) (inM : Bool) (i : Nat),
      (inM = true → countM t l = 0) → (inM = false → countM t l ≤ 1) →
      shTFGo t f inM (l.map Token.shape) = some i →
      subTFGo t f v inM l = modLit v i l := by
  intro l
  induction l with
  | nil => intro inM i _ _ h; exact absurd h (by simp [shTFGo])
  | cons tok ts ih =>
    intro inM i hT hF h
    cases tok with
    | marker m =>
      simp only [List.map_cons, Token.shape, shTFGo, Option.map_eq_some'] at h
      obtain ⟨i', hi', rfl⟩ := h
      have hT' : (inM || m == t) = true → countM t ts = 0 := by
        intro hst
        by_cases hm : (m == t) = true
        · cases hin : inM
          · have h2 := hF hin
            simp [countM, hm] at h2
            omega
          · have h2 := hT hin
            simp [countM, hm] at h2
        · have hin : inM = true := by
            cases hin : inM
            · rw [hin] at hst
              simp [hm] at hst
            · rfl
          have h2 := hT hin
          simpa [countM, hm] using h2
      have hF' : (inM || m == t) = false → countM t ts ≤ 1 := by
        intro hst
        have hin : inM = false := by
          cases hin : inM
          · rfl
          · rw [hin] at hst; simp at hst
        have hm : (m == t) = false := by
          cases hm : (m == t)
          · rfl
          · rw [hm] at hst; simp at hst
        have h2 := hF hin
        simpa [countM, hm] using h2
      simp only [subTFGo, modLit]
      rw [ih _ _ hT' hF' hi']
    | field n w =>
      simp only [List.map_cons, Token.shape, shTFGo] at h
      by_cases hc : (inM && n == f) = true
      · rw [if_pos hc] at h
        have hi0 : i = 0 := by simpa using h.symm
        subst hi0
        have hin : inM = true := by
          have h2 := hc
          simp only [Bool.and_eq_true] at h2
          exact h2.1
        have hts : countM t ts = 0 := by simpa [countM] using hT hin
        simp only [subTFGo, modLit]
        rw [if_pos hc, subTFGo_eq_of_noMarker t f v ts hts]
      · rw [if_neg hc, Option.map_eq_some'] at h
        obtain ⟨i', hi', rfl⟩ := h
        have hT' : inM = true → countM t ts = 0 := fun hin => by
          simpa [countM] using hT hin
        have hF' : inM = false → countM t ts ≤ 1 := fun hin => by
          simpa [countM] using hF hin
        simp only [subTFGo, modLit]
        rw [if_neg hc, ih _ _ hT' hF' hi']
    | date s =>
      simp only [List.map_cons, Token.shape, shTFGo, Option.map_eq_some'] at h
      obtain ⟨i', hi', rfl⟩ := h
      have hT' : inM = true → countM t ts = 0 := fun hin => by
        simpa [countM] using hT hin
      have hF' : inM = false → countM t ts ≤ 1 := fun hin => by
        simpa [countM] using hF hin
      simp only [subTFGo, modLit]
      rw [ih _ _ hT' hF' hi']
    | text s =>
      simp only [List.map_cons, Token.shape, shTFGo, Option.map_eq_some'] at h
      obtain ⟨i', hi', rfl⟩ := h
      have hT' : inM = true → countM t ts = 0 := fun hin => by
        simpa [countM] using hT hin
      have hF' : inM = false → countM t ts ≤ 1 := fun hin => by
        simpa [countM] using hF hin
      simp only [subTFGo, modLit]
      rw [ih _ _ hT' hF' hi']

/-- Under marker uniqueness the record-scoped substitution is exactly a
single-literal modification at the match index. -/
theorem subTF_eq_modLit (t f : String) (v : ℚ) (l : List Token) (i : Nat)
    (hMU : countM t l ≤ 1) (hi : tIdx t f l = some i) :
    subTF t f v l = modLit v i l :=
  subTFGo_eq_modLit t f v l false i (fun h => by cases h) (fun _ => hMU) hi

/-- When the pattern has no match the substitution is the identity. -/
theorem subTF_eq_of_noMatch (t f : String) (v : ℚ) (l : List Token)
    (hi : tIdx t f l = none) : subTF t f v l = l :=
  subTFGo_eq_of_none t f v l false hi

/-- `modLit` leaves every other index untouched. -/
theorem modLit_get?_ne (v : ℚ) :
    ∀ (l : List Token) (i j : Nat), j ≠ i →
      (modLit v i l).get? j = l.get? j := by
  intro l
  induction l with
  | nil => intro i j _; cases i <;> rfl
  | cons tok ts ih =>
    intro i j h
    cases i with
    | zero =>
      cases j with
      | zero => exact absurd rfl h
      | succ j' => cases tok <;> rfl
    | succ i' =>
      cases j with
      | zero => rfl
      | succ j' => simpa [modLit] using ih i' j' (fun hh => h (by rw [hh]))

/-- `modLit` rewrites the literal at its index. -/
theorem modLit_get?_eq (v : ℚ) :
    ∀ (l : List Token) (i : Nat) (n : String) (w : ℚ),
      l.get? i = some (.field n w) →
      (modLit v i l).get? i = some (.field n v) := by
  intro l
  induction l with
  | nil => intro i n w h; cases i <;> simp at h
  | cons tok ts ih =>
    intro i n w h
    cases i with
    | zero =>
      have : tok = .field n w := by simpa using h
      subst this
      rfl
    | succ i' => simpa [modLit] using ih i' n w (by simpa using h)

/-- `modLit` preserves length. -/
theorem modLit_length (v : ℚ) :
    ∀ (l : List Token) (i : Nat), (modLit v i l).length = l.length := by
  intro l
  induction l with
  | nil => intro i; cases i <;> rfl
  | cons tok ts ih =>
    intro i
    cases i with
    | zero => cases tok <;> rfl
    | succ i' => simpa [modLit] using ih i'

/-- The shape at a match index is a field of the searched name. -/
theorem shTFGo_field (t f : String) :
    ∀ (s : List Sh) (inM : Bool) (i : Nat),
      shTFGo t f inM s = some i → s.get? i = some (.field f) := by
  intro s
  induction s with
  | nil => intro inM i h; exact absurd h (by simp [shTFGo])
  | cons sh ss ih =>
    intro inM i h
    cases sh with
    | marker m =>
      rw [shTFGo, Option.map_eq_some'] at h
      obtain ⟨i', hi', rfl⟩ := h
      simpa using ih _ _ hi'
    | field n =>
      rw [shTFGo] at h
      by_cases hc : (inM && n == f) = true
      · rw [if_pos hc] at h
        have hi0 : i = 0 := by simpa using h.symm
        subst hi0
        have : n = f := by
          have h2 := hc
          simp only [Bool.and_eq_true, beq_iff_eq] at h2
          exact h2.2
        subst this
        rfl
      · rw [if_neg hc, Option.map_eq_some'] at h
        obtain ⟨i', hi', rfl⟩ := h
        simpa using ih _ _ hi'
    | date =>
      simp only [shTFGo, Option.map_eq_some'] at h
      obtain ⟨i', hi', rfl⟩ := h
      simpa using ih _ _ hi'
    | text s' =>
      simp only [shTFGo, Option.map_eq_some'] at h
      obtain ⟨i', hi', rfl⟩ := h
      simpa using ih _ _ hi'

/-- The token at a match index is a field of the searched name. -/
theorem tIdx_field (t f : String) (l : List Token) (i : Nat)
    (h : tIdx t f l = some i) : ∃ w, l.get? i = some (.field f w) := by
  have hs := shTFGo_field t f (l.map Token.shape) false i h
  rw [List.get?_map] at hs
  rcases he : l.get? i with _ | tok
  · rw [he] at hs; simp at hs
  · rw [he] at hs
    cases tok with
    | marker m => simp [Token.shape] at hs
    | field n w =>
      have : n = f := by simpa [Token.shape] using hs
      subst this
      exact ⟨w, rfl⟩
    | date s => simp [Token.shape] at hs
    | text s => simp [Token.shape] at hs

/-! Claim theorems. -/

/-! Claim theorems. -/

/-- C1 counterexample: patching field `current_price_eur` of record A on a
document where A's block does not contain that field rewrites the
same-named field that belongs to record B's block (the only price field,
at index 2, right after B's marker): the lazy DOTALL pattern crosses the
record boundary.  The claim that the substitution never rewrites a
same-named field of a different record is therefore false. -/
theorem cross_record_rewrite :
    (update_yaml_file docAB [posA] [("YA", 100)] 1 none false "d").content =
      [.marker "A", .marker "B", .field "current_price_eur" 100] ∧
    (update_yaml_file docAB [posA] [("YA", 100)] 1 none false "d").changes =
      [mkPriceChange "A" 10 100] ∧
    tIdx "A" "current_price_eur" docAB = some 2 ∧
    docAB.get? 2 = some (.field "current_price_eur" 10) := by
  have h1 : monTol < |(10:ℚ) - 100| := by norm_num [monTol]
  have h2 : roundTo 5 (100:ℚ) = 100 := by norm_num [roundTo, rhe]
  refine ⟨?_, ?_, by decide, by decide⟩ <;>
    simp [update_yaml_file, docAB, posA, rateStep, searchF, dateStep, dateTok,
      processPos, priceStep, highStep, lowStep, priceCand, highCand, lowCand, patchTF, searchTF, searchTFGo,
      subTF, subTFGo, List.lookup, h1, h2]

/-- C2 counterexample: with two open records sharing (via the cross-record
fallback) one price-field token, the second run with the identical
observation set again produces change entries: run 1 ends with the field at
50 (B's value), so run 2 patches it to 100 for A and back to 50 for B. -/
theorem second_run_not_clean :
    run2AB.changes = [mkPriceChange "A" 50 100, mkPriceChange "B" 100 50] ∧
    run2AB.changes ≠ [] := by
  have hA1 : monTol < |(10:ℚ) - 100| := by norm_num [monTol]
  have hB1 : monTol < |(100:ℚ) - 50| := by norm_num [monTol]
  have hA2 : monTol < |(50:ℚ) - 100| := by norm_num [monTol]
  have hr100 : roundTo 5 (100:ℚ) = 100 := by norm_num [roundTo, rhe]
  have hr50 : roundTo 5 (50:ℚ) = 50 := by norm_num [roundTo, rhe]
  have hc : run1AB.content = [.marker "A", .marker "B", .field "current_price_eur" 50] := by
    simp [run1AB, update_yaml_file, docAB, posA, posB, rateStep, searchF,
      dateStep, dateTok, processPos, priceStep, highStep, lowStep, priceCand, highCand, lowCand, patchTF,
      searchTF, searchTFGo, subTF, subTFGo, List.lookup, hA1, hB1, hr100, hr50]
  constructor
  · simp [run2AB, hc, update_yaml_file, posA, posB, rateStep, searchF,
      dateStep, dateTok, processPos, priceStep, highStep, lowStep, priceCand, highCand, lowCand, patchTF,
      searchTF, searchTFGo, subTF, subTFGo, List.lookup, hA2, hB1, hr100, hr50]
  · intro h
    rw [show run2AB.changes = [mkPriceChange "A" 50 100, mkPriceChange "B" 100 50] from by
      simp [run2AB, hc, update_yaml_file, posA, posB, rateStep, searchF,
        dateStep, dateTok, processPos, priceStep, highStep, lowStep, priceCand, highCand, lowCand, patchTF,
        searchTF, searchTFGo, subTF, subTFGo, List.lookup, hA2, hB1, hr100, hr50]] at h
    exact List.cons_ne_nil _ _ h

/-- C3 counterexample: record B is closed (`is_open = false`), yet the run
mutates the field token inside B's block (index 2): patching open record A,
whose block lacks the price field, rewrites B's field from 10 to 70.  The
claim that no field of a closed record is ever mutated is therefore
false. -/
theorem closed_record_mutated :
    run1C3.content = [.marker "A", .marker "B", .field "current_price_eur" 70] ∧
    posBClosed.is_open = false ∧
    docAB.get? 2 = some (.field "current_price_eur" 10) ∧
    run1C3.content.get? 2 = some (.field "current_price_eur" 70) := by
  have h1 : monTol < |(10:ℚ) - 70| := by norm_num [monTol]
  have h2 : roundTo 5 (70:ℚ) = 70 := by norm_num [roundTo, rhe]
  have hc : run1C3.content = [.marker "A", .marker "B", .field "current_price_eur" 70] := by
    simp [run1C3, update_yaml_file, docAB, posA, posBClosed, rateStep, searchF,
      dateStep, dateTok, processPos, priceStep, highStep, lowStep, priceCand, highCand, lowCand, patchTF,
      searchTF, searchTFGo, subTF, subTFGo, List.lookup, h1, h2]
  exact ⟨hc, rfl, rfl, by rw [hc]; rfl⟩

/-- C4: tolerance semantics of the field patcher.  With the old value
located, a delta at or below the tolerance (0.01 monetary, 0.001 for the
rate) leaves the text unchanged with no change entry — equality with the
tolerance does not trigger — and a delta beyond it substitutes the literal
(at the defined precision) and produces the change data. -/
theorem tolerance_boundary (c : List Token) (t f : String) (cand old oldr rate : ℚ)
    (h : searchTF t f c = some old) (hr : searchF "usd_to_eur" c = some oldr) :
    (|old - cand| ≤ monTol → patchTF t f cand c = none) ∧
    (monTol < |old - cand| →
      patchTF t f cand c = some (subTF t f (roundTo 5 cand) c, old)) ∧
    (|oldr - rate| ≤ rateTol → rateStep rate c = (c, [])) ∧
    (rateTol < |oldr - rate| →
      rateStep rate c = (subF "usd_to_eur" (roundTo 4 rate) c, [mkRateChange oldr rate])) := by
  refine ⟨fun hd => ?_, fun hd => ?_, fun hd => ?_, fun hd => ?_⟩
  · simp [patchTF, h, not_lt.mpr hd]
  · simp [patchTF, h, hd]
  · simp [rateStep, hr, not_lt.mpr hd]
  · simp [rateStep, hr, hd]

/-- Witness for the tolerance theorem: on `docW`, a price delta of exactly
0.01 (old 10, candidate 10.01) does not trigger, and a delta of 0.02 does;
a rate delta of exactly 0.001 does not trigger. -/
theorem tolerance_boundary_wit :
    patchTF "A" "current_price_eur" (1001/100) docW = none ∧
    patchTF "A" "current_price_eur" (1002/100) docW =
      some (subTF "A" "current_price_eur" (roundTo 5 (1002/100)) docW, 10) ∧
    rateStep (1001/1000) docW = (docW, []) := by
  refine ⟨?_, ?_, ?_⟩
  · exact (tolerance_boundary docW "A" "current_price_eur" (1001/100) 10 1 1
      (by decide) (by decide)).1 (by
        rw [abs_sub_comm, abs_of_nonneg (by norm_num : (0:ℚ) ≤ 1001/100 - 10)]
        norm_num [monTol])
  · exact (tolerance_boundary docW "A" "current_price_eur" (1002/100) 10 1 1
      (by decide) (by decide)).2.1 (by
        rw [abs_sub_comm, abs_of_nonneg (by norm_num : (0:ℚ) ≤ 1002/100 - 10)]
        norm_num [monTol])
  · exact (tolerance_boundary docW "A" "current_price_eur" 0 10 1 (1001/1000)
      (by decide) (by decide)).2.2.1 (by
        rw [abs_sub_comm, abs_of_nonneg (by norm_num : (0:ℚ) ≤ 1001/1000 - 1)]
        norm_num [rateTol])

/-- C5: the writer commits exactly when `dry_run` is false and the mutated
text differs from the original; with dry run enabled nothing is ever
written. -/
theorem writer_commit_iff (doc : List Token) (positions : List Position)
    (prices : List (String × ℚ)) (rate : ℚ)
    (targets : Option (List (String × TargetData))) (today : String) :
    (∀ dry, (update_yaml_file doc positions prices rate targets dry today).written = true ↔
      dry = false ∧
        (update_yaml_file doc positions prices rate targets dry today).content ≠ doc) ∧
    (update_yaml_file doc positions prices rate targets true today).written = false := by
  constructor
  · intro dry
    cases dry <;> simp [update_yaml_file]
  · simp [update_yaml_file]

/-- C6: currency conversion.  Every externally observed monetary value of a
USD record — current price, analyst high, analyst low — is multiplied by the
exchange rate before comparison and substitution; a non-USD record uses each
observed value as-is.  On the concrete two-record documents with rate 0.85
and observed value 100, the USD record's fields become 85 and the EUR
record's fields 100, rendered at 5 decimals as "85.00000" and
"100.00000". -/
theorem currency_conversion :
    (∀ (prices : List (String × ℚ)) (rate : ℚ) (pos : Position),
      pos.currency = "USD" →
        priceCand prices rate pos = (prices.lookup pos.yahoo_ticker).map fun raw => raw * rate) ∧
    (∀ (prices : List (String × ℚ)) (rate : ℚ) (pos : Position),
      ¬ pos.currency = "USD" →
        priceCand prices rate pos = prices.lookup pos.yahoo_ticker) ∧
    (update_yaml_file docFB [posF, posB] [("YF", 100), ("YB", 100)] (17/20) none false "d").content =
      [.marker "F", .field "current_price_eur" 85,
       .marker "B", .field "current_price_eur" 100] ∧
    fmtFixed 5 85 = "85.00000" ∧ fmtFixed 5 100 = "100.00000" ∧
    (∀ (tm : List (String × TargetData)) (rate : ℚ) (pos : Position)
      (td : TargetData) (h : ℚ), pos.currency = "USD" →
      tm.lookup pos.yahoo_ticker = some td → td.high = some h → ¬h = 0 →
      highCand (some tm) rate pos = some (h * rate)) ∧
    (∀ (tm : List (String × TargetData)) (rate : ℚ) (pos : Position)
      (td : TargetData) (h : ℚ), ¬pos.currency = "USD" →
      tm.lookup pos.yahoo_ticker = some td → td.high = some h → ¬h = 0 →
      highCand (some tm) rate pos = some h) ∧
    (∀ (tm : List (String × TargetData)) (rate : ℚ) (pos : Position)
      (td : TargetData) (h : ℚ), pos.currency = "USD" →
      tm.lookup pos.yahoo_ticker = some td → td.low = some h → ¬h = 0 →
      lowCand (some tm) rate pos = some (h * rate)) ∧
    (∀ (tm : List (String × TargetData)) (rate : ℚ) (pos : Position)
      (td : TargetData) (h : ℚ), ¬pos.currency = "USD" →
      tm.lookup pos.yahoo_ticker = some td → td.low = some h → ¬h = 0 →
      lowCand (some tm) rate pos = some h) ∧
    (update_yaml_file docFBT [posF, posB] [("YF", 100), ("YB", 100)] (17/20)
        (some [("YF", ⟨some 100, some 100⟩), ("YB", ⟨some 100, some 100⟩)])
        false "d").content =
      [.marker "F", .field "current_price_eur" 85, .field "target_high_eur" 85,
       .field "target_low_eur" 85,
       .marker "B", .field "current_price_eur" 100, .field "target_high_eur" 100,
       .field "target_low_eur" 100] := by
  refine ⟨?_, ?_, ?_, ?_, ?_, ?_, ?_, ?_, ?_, ?_⟩
  · intro prices rate pos h
    simp [priceCand, h]
  · intro prices rate pos h
    have hb : (pos.currency == "USD") = false := by
      simpa using h
    simp [priceCand, hb]
  · have hF : monTol < |(50:ℚ) - 100 * (17/20)| := by norm_num [monTol]
    have hB : monTol < |(50:ℚ) - 100| := by norm_num [monTol]
    have hrF : roundTo 5 ((100:ℚ) * (17/20)) = 85 := by norm_num [roundTo, rhe]
    have hrB : roundTo 5 (100:ℚ) = 100 := by norm_num [roundTo, rhe]
    simp [update_yaml_file, docFB, posF, posB, rateStep, searchF, dateStep,
      dateTok, processPos, priceStep, highStep, lowStep, priceCand, highCand, lowCand, patchTF, searchTF,
      searchTFGo, subTF, subTFGo, List.lookup, hF, hB, hrF, hrB]
  · rw [fmtFixed_eval 5 85 8500000 (by norm_num [rhe]) (by norm_num)]
    decide
  · rw [fmtFixed_eval 5 100 10000000 (by norm_num [rhe]) (by norm_num)]
    decide
  · intro tm rate pos td h hc hlk hh hz
    simp [highCand, hlk, hh, hz, hc]
  · intro tm rate pos td h hc hlk hh hz
    have hb : (pos.currency == "USD") = false := by simpa using hc
    simp [highCand, hlk, hh, hz, hb]
  · intro tm rate pos td h hc hlk hl hz
    simp [lowCand, hlk, hl, hz, hc]
  · intro tm rate pos td h hc hlk hl hz
    have hb : (pos.currency == "USD") = false := by simpa using hc
    simp [lowCand, hlk, hl, hz, hb]
  · have hF : monTol < |(50:ℚ) - 100 * (17/20)| := by norm_num [monTol]
    have hB : monTol < |(50:ℚ) - 100| := by norm_num [monTol]
    have hrF : roundTo 5 ((100:ℚ) * (17/20)) = 85 := by norm_num [roundTo, rhe]
    have hrB : roundTo 5 (100:ℚ) = 100 := by norm_num [roundTo, rhe]
    simp [update_yaml_file, docFBT, posF, posB, rateStep, searchF, dateStep,
      dateTok, processPos, priceStep, highStep, lowStep, priceCand, highCand,
      lowCand, patchTF, searchTF, searchTFGo, subTF, subTFGo, List.lookup,
      hF, hB, hrF, hrB]

/-- Witness for the conversion equations: a USD position's candidates
(price, analyst high, analyst low) are the observed values times rate 3, a
EUR position's candidates are the observed values unchanged. -/
theorem currency_conversion_wit :
    priceCand [("Y", 2)] 3 ⟨"T", "Y", "USD", true⟩ = some 6 ∧
    priceCand [("Y", 2)] 3 ⟨"T", "Y", "EUR", true⟩ = some 2 ∧
    highCand (some [("Y", ⟨some 2, some 5⟩)]) 3 ⟨"T", "Y", "USD", true⟩ = some 6 ∧
    highCand (some [("Y", ⟨some 2, some 5⟩)]) 3 ⟨"T", "Y", "EUR", true⟩ = some 2 ∧
    lowCand (some [("Y", ⟨some 2, some 5⟩)]) 3 ⟨"T", "Y", "USD", true⟩ = some 15 ∧
    lowCand (some [("Y", ⟨some 2, some 5⟩)]) 3 ⟨"T", "Y", "EUR", true⟩ = some 5 := by
  refine ⟨?_, ?_, ?_, ?_, ?_, ?_⟩
  · rw [currency_conversion.1 [("Y", 2)] 3 ⟨"T", "Y", "USD", true⟩ rfl]
    simp [List.lookup]
    norm_num
  · rw [currency_conversion.2.1 [("Y", 2)] 3 ⟨"T", "Y", "EUR", true⟩ (by decide)]
    decide
  · rw [currency_conversion.2.2.2.2.2.1 [("Y", ⟨some 2, some 5⟩)] 3
      ⟨"T", "Y", "USD", true⟩ ⟨some 2, some 5⟩ 2 rfl (by decide) rfl (by norm_num)]
    norm_num
  · rw [currency_conversion.2.2.2.2.2.2.1 [("Y", ⟨some 2, some 5⟩)] 3
      ⟨"T", "Y", "EUR", true⟩ ⟨some 2, some 5⟩ 2 (by decide) (by decide) rfl (by norm_num)]
  · rw [currency_conversion.2.2.2.2.2.2.2.1 [("Y", ⟨some 2, some 5⟩)] 3
      ⟨"T", "Y", "USD", true⟩ ⟨some 2, some 5⟩ 5 rfl (by decide) rfl (by norm_num)]
    norm_num
  · rw [currency_conversion.2.2.2.2.2.2.2.2.1 [("Y", ⟨some 2, some 5⟩)] 3
      ⟨"T", "Y", "EUR", true⟩ ⟨some 2, some 5⟩ 5 (by decide) (by decide) rfl (by norm_num)]

/-- C7: the run exits 0 exactly when the document exists, the exchange rate
was obtained, and at least one price observation was obtained (for the open
positions with a yahoo ticker); otherwise it exits non-zero.  A run with no
open positions fetches no prices and exits non-zero. -/
theorem main_exit_status (ye : Bool) (ps : List Position) (rr : Option ℚ)
    (src : String → Option ℚ) :
    mainExit ye ps rr src = 0 ↔
      ye = true ∧ rr.isSome = true ∧
        fetchPrices src
          ((ps.filter fun p => p.is_open && !(p.yahoo_ticker == "")).map (·.yahoo_ticker)) ≠ [] := by
  cases ye
  · simp [mainExit]
  · cases rr with
    | none => simp [mainExit]
    | some rate =>
      by_cases hop : (ps.filter fun p => p.is_open && !(p.yahoo_ticker == "")).isEmpty
      · have hnil : (ps.filter fun p => p.is_open && !(p.yahoo_ticker == "")) = [] := by
          simpa [List.isEmpty_iff] using hop
        simp [mainExit, hop, hnil, fetchPrices]
      · have hopf : (ps.filter fun p => p.is_open && !(p.yahoo_ticker == "")).isEmpty = false := by
          simpa using hop
        rcases hl : fetchPrices src
            ((ps.filter fun p => p.is_open && !(p.yahoo_ticker == "")).map (·.yahoo_ticker)) with
          _ | ⟨q, rest⟩
        · simp [mainExit, hopf, hl]
        · simp [mainExit, hopf, hl]

/-- C9: when the document has no `usd_to_eur` field, the run does not fail:
the rate patch is skipped (the document is handed on unchanged and no rate
change entry is created) and the positions are still processed normally with
the fetched rate. -/
theorem missing_rate_field (doc : List Token) (positions : List Position)
    (prices : List (String × ℚ)) (rate : ℚ)
    (targets : Option (List (String × TargetData))) (dry : Bool) (today : String)
    (h : searchF "usd_to_eur" doc = none) :
    update_yaml_file doc positions prices rate targets dry today =
      { content := (positions.foldl (processPos prices targets rate)
          ⟨dateStep today doc, [], []⟩).content,
        changes := (positions.foldl (processPos prices targets rate)
          ⟨dateStep today doc, [], []⟩).changes,
        targetChanges := (positions.foldl (processPos prices targets rate)
          ⟨dateStep today doc, [], []⟩).targetChanges,
        written := !dry && decide ((positions.foldl (processPos prices targets rate)
          ⟨dateStep today doc, [], []⟩).content ≠ doc) } := by
  simp [update_yaml_file, rateStep, h]

/-- Witness for the missing-rate-field theorem at a concrete document with
no `usd_to_eur` field. -/
theorem missing_rate_field_wit :
    update_yaml_file docAB [] [] 3 none true "d" = ⟨docAB, [], [], false⟩ := by
  have h := missing_rate_field docAB [] [] 3 none true "d" (by decide)
  simpa [dateStep, dateTok, docAB] using h

/-- C10: an observed analyst target equal to 0 is treated as absent (Python
truthiness of `if high_raw:` / `if low_raw:`, lines 175, 193): the
corresponding patch block is the identity on any state — the field is never
patched with 0 and no target change entry appears, whatever the stored
value is, even when it differs from 0 by more than the tolerance — while
the price block and the other target block of the same position still run
normally. -/
theorem zero_target_skipped :
    (∀ (targets : Option (List (String × TargetData))) (u : ℚ) (pos : Position)
      (tm : List (String × TargetData)) (td : TargetData),
      targets = some tm → tm.lookup pos.yahoo_ticker = some td →
      td.high = some 0 → ∀ st : St, highStep targets u pos st = st) ∧
    (∀ (targets : Option (List (String × TargetData))) (u : ℚ) (pos : Position)
      (tm : List (String × TargetData)) (td : TargetData),
      targets = some tm → tm.lookup pos.yahoo_ticker = some td →
      td.low = some 0 → ∀ st : St, lowStep targets u pos st = st) ∧
    (∀ (prices : List (String × ℚ)) (targets : Option (List (String × TargetData)))
      (u : ℚ) (st : St) (pos : Position) (tm : List (String × TargetData))
      (td : TargetData),
      (pos.yahoo_ticker == "" || !pos.is_open) = false →
      targets = some tm → tm.lookup pos.yahoo_ticker = some td →
      td.high = some 0 →
      processPos prices targets u st pos =
        lowStep targets u pos (priceStep prices u pos st)) ∧
    (∀ (prices : List (String × ℚ)) (targets : Option (List (String × TargetData)))
      (u : ℚ) (st : St) (pos : Position) (tm : List (String × TargetData))
      (td : TargetData),
      (pos.yahoo_ticker == "" || !pos.is_open) = false →
      targets = some tm → tm.lookup pos.yahoo_ticker = some td →
      td.low = some 0 →
      processPos prices targets u st pos =
        highStep targets u pos (priceStep prices u pos st)) := by
  have hhigh : ∀ (targets : Option (List (String × TargetData))) (u : ℚ)
      (pos : Position) (tm : List (String × TargetData)) (td : TargetData),
      targets = some tm → tm.lookup pos.yahoo_ticker = some td →
      td.high = some 0 → ∀ st : St, highStep targets u pos st = st := by
    intro targets u pos tm td htg hlk hh st
    subst htg
    simp [highStep, highCand, hlk, hh]
  have hlow : ∀ (targets : Option (List (String × TargetData))) (u : ℚ)
      (pos : Position) (tm : List (String × TargetData)) (td : TargetData),
      targets = some tm → tm.lookup pos.yahoo_ticker = some td →
      td.low = some 0 → ∀ st : St, lowStep targets u pos st = st := by
    intro targets u pos tm td htg hlk hl st
    subst htg
    simp [lowStep, lowCand, hlk, hl]
  refine ⟨hhigh, hlow, ?_, ?_⟩
  · intro prices targets u st pos tm td hel htg hlk hh
    have hgne : ¬((pos.yahoo_ticker == "" || !pos.is_open) = true) := by simp [hel]
    unfold processPos
    rw [if_neg hgne, hhigh targets u pos tm td htg hlk hh]
  · intro prices targets u st pos tm td hel htg hlk hl
    have hgne : ¬((pos.yahoo_ticker == "" || !pos.is_open) = true) := by simp [hel]
    unfold processPos
    rw [if_neg hgne, hlow targets u pos tm td htg hlk hl]

/-- Witness: with a price available, an observed high of 0 and a nonzero
observed low, the high block is the identity and the loop body reduces to
the price and low blocks alone — the high field stored as 10 is never
patched to 0. -/
theorem zero_target_skipped_wit :
    highStep (some [("YT", ⟨some 0, some 20⟩)]) 1 posT ⟨docT, [], []⟩ =
      ⟨docT, [], []⟩ ∧
    processPos [("YT", 100)] (some [("YT", ⟨some 0, some 20⟩)]) 1
        ⟨docT, [], []⟩ posT =
      lowStep (some [("YT", ⟨some 0, some 20⟩)]) 1 posT
        (priceStep [("YT", 100)] 1 posT ⟨docT, [], []⟩) := by
  constructor
  · exact zero_target_skipped.1 (some [("YT", ⟨some 0, some 20⟩)]) 1 posT
      [("YT", ⟨some 0, some 20⟩)] ⟨some 0, some 20⟩ rfl (by decide) rfl
      ⟨docT, [], []⟩
  · exact zero_target_skipped.2.2.1 [("YT", 100)]
      (some [("YT", ⟨some 0, some 20⟩)]) 1 ⟨docT, [], []⟩ posT
      [("YT", ⟨some 0, some 20⟩)] ⟨some 0, some 20⟩ (by decide) rfl
      (by decide) rfl

/-- C8 counterexample: a run with one analyst-target change and no price
change prints a target line with no percentage figure, and the second
(target) section prints nothing at all when empty: `report [] []` is the
single price no-changes line, not one line per section. -/
theorem report_shape_cex :
    report run1C8.changes run1C8.targetChanges =
      ["No significant price changes", "Analyst target changes:",
       "  T high: €10.00 -> €20.00"] ∧
    report [] [] = ["No significant price changes"] := by
  have h1 : monTol < |(10:ℚ) - 20| := by norm_num [monTol]
  have h2 : roundTo 5 (20:ℚ) = 20 := by norm_num [roundTo, rhe]
  have hf10 : fmtFixed 2 10 = "10.00" := by
    rw [fmtFixed_eval 2 10 1000 (by norm_num [rhe]) (by norm_num)]
    decide
  have hf20 : fmtFixed 2 20 = "20.00" := by
    rw [fmtFixed_eval 2 20 2000 (by norm_num [rhe]) (by norm_num)]
    decide
  constructor
  · simp [run1C8, update_yaml_file, docT, posT, rateStep, searchF, dateStep,
      dateTok, processPos, priceStep, highStep, lowStep, priceCand, highCand, lowCand, patchTF, searchTF,
      searchTFGo, subTF, subTFGo, List.lookup, h1, h2, report,
      mkTargetChange, hf10, hf20]
  · simp [report]

/-- C1 amended: when the marker of record R occurs at most once, the
substitution for field F of R touches exactly one token: when the pattern
has no match nothing changes, and when it matches at index i the token at i
is an F-field whose literal alone is rewritten (every other index and the
length are preserved).  The matched index is the first F-field at or after
R's marker, which lies in a later record's block when R's own block lacks
F (the counterexample); within a block that carries its own F-field it is
R's own field. -/
theorem scoped_sub_frame (c : List Token) (t f : String) (v : ℚ)
    (hMU : countM t c ≤ 1) :
    (tIdx t f c = none → subTF t f v c = c) ∧
    ∀ i, tIdx t f c = some i →
      (∀ j, j ≠ i → (subTF t f v c).get? j = c.get? j) ∧
      (∃ w, c.get? i = some (.field f w) ∧
        (subTF t f v c).get? i = some (.field f v)) ∧
      (subTF t f v c).length = c.length := by
  constructor
  · intro h
    exact subTF_eq_of_noMatch t f v c h
  · intro i hi
    obtain ⟨w, hw⟩ := tIdx_field t f c i hi
    have hm : subTF t f v c = modLit v i c := subTF_eq_modLit t f v c i hMU hi
    refine ⟨fun j hj => by rw [hm]; exact modLit_get?_ne v c i j hj,
      ⟨w, hw, by rw [hm]; exact modLit_get?_eq v c i f w hw⟩,
      by rw [hm]; exact modLit_length v c i⟩

/-- Witness: on the cross-block document, substituting for record A
modifies only index 2 (the price field reachable from A's marker) and
leaves indices 0 and 1 intact. -/
theorem scoped_sub_frame_wit :
    (subTF "A" "current_price_eur" 5 docAB).get? 0 = docAB.get? 0 ∧
    (subTF "A" "current_price_eur" 5 docAB).get? 1 = docAB.get? 1 ∧
    (subTF "A" "current_price_eur" 5 docAB).get? 2 =
      some (.field "current_price_eur" 5) := by
  obtain ⟨-, hs⟩ := scoped_sub_frame docAB "A" "current_price_eur" 5 (by decide)
  obtain ⟨hne, ⟨w, hw, heq⟩, -⟩ := hs 2 (by decide)
  exact ⟨hne 0 (by decide), hne 1 (by decide), heq⟩

/-- The price block leaves the target log alone and can only append a price
change line for this position's ticker. -/
theorem priceStep_log (prices : List (String × ℚ)) (u : ℚ) (pos : Position)
    (st : St) :
    (priceStep prices u pos st).targetChanges = st.targetChanges ∧
    ∀ s ∈ (priceStep prices u pos st).changes,
      s ∈ st.changes ∨ ∃ old cand, s = mkPriceChange pos.ticker old cand := by
  cases hpc : priceCand prices u pos with
  | none =>
    simp only [priceStep, hpc]
    exact ⟨trivial, fun s hs => Or.inl hs⟩
  | some cand =>
    cases hpt : patchTF pos.ticker "current_price_eur" cand st.content with
    | none =>
      simp only [priceStep, hpc, hpt]
      exact ⟨trivial, fun s hs => Or.inl hs⟩
    | some pr =>
      obtain ⟨c, old⟩ := pr
      simp only [priceStep, hpc, hpt]
      refine ⟨trivial, fun s hs => ?_⟩
      rcases List.mem_append.mp hs with h | h
      · exact Or.inl h
      · exact Or.inr ⟨old, cand, by simpa using h⟩

/-- The analyst-high block leaves the price log alone and can only append a
"high" target line for this position's ticker. -/
theorem highStep_log (targets : Option (List (String × TargetData))) (u : ℚ)
    (pos : Position) (st : St) :
    (highStep targets u pos st).changes = st.changes ∧
    ∀ s ∈ (highStep targets u pos st).targetChanges,
      s ∈ st.targetChanges ∨
        ∃ old cand, s = mkTargetChange pos.ticker "high" old cand := by
  cases hpc : highCand targets u pos with
  | none =>
    simp only [highStep, hpc]
    exact ⟨trivial, fun s hs => Or.inl hs⟩
  | some cand =>
    cases hpt : patchTF pos.ticker "target_high_eur" cand st.content with
    | none =>
      simp only [highStep, hpc, hpt]
      exact ⟨trivial, fun s hs => Or.inl hs⟩
    | some pr =>
      obtain ⟨c, old⟩ := pr
      simp only [highStep, hpc, hpt]
      refine ⟨trivial, fun s hs => ?_⟩
      rcases List.mem_append.mp hs with h | h
      · exact Or.inl h
      · exact Or.inr ⟨old, cand, by simpa using h⟩

/-- The analyst-low block leaves the price log alone and can only append a
"low" target line for this position's ticker. -/
theorem lowStep_log (targets : Option (List (String × TargetData))) (u : ℚ)
    (pos : Position) (st : St) :
    (lowStep targets u pos st).changes = st.changes ∧
    ∀ s ∈ (lowStep targets u pos st).targetChanges,
      s ∈ st.targetChanges ∨
        ∃ old cand, s = mkTargetChange pos.ticker "low" old cand := by
  cases hpc : lowCand targets u pos with
  | none =>
    simp only [lowStep, hpc]
    exact ⟨trivial, fun s hs => Or.inl hs⟩
  | some cand =>
    cases hpt : patchTF pos.ticker "target_low_eur" cand st.content with
    | none =>
      simp only [lowStep, hpc, hpt]
      exact ⟨trivial, fun s hs => Or.inl hs⟩
    | some pr =>
      obtain ⟨c, old⟩ := pr
      simp only [lowStep, hpc, hpt]
      refine ⟨trivial, fun s hs => ?_⟩
      rcases List.mem_append.mp hs with h | h
      · exact Or.inl h
      · exact Or.inr ⟨old, cand, by simpa using h⟩

/-- A position's loop body only appends change lines for that position, and
only when it passes the eligibility guard. -/
theorem processPos_log (prices : List (String × ℚ))
    (targets : Option (List (String × TargetData))) (u : ℚ) (st : St)
    (pos : Position) :
    (∀ s ∈ (processPos prices targets u st pos).changes,
      s ∈ st.changes ∨ (pos.is_open = true ∧ ¬pos.yahoo_ticker = "" ∧
        ∃ old cand, s = mkPriceChange pos.ticker old cand)) ∧
    (∀ s ∈ (processPos prices targets u st pos).targetChanges,
      s ∈ st.targetChanges ∨ (pos.is_open = true ∧ ¬pos.yahoo_ticker = "" ∧
        ∃ k old cand, (k = "high" ∨ k = "low") ∧
          s = mkTargetChange pos.ticker k old cand)) := by
  unfold processPos
  by_cases hg : (pos.yahoo_ticker == "" || !pos.is_open) = true
  · rw [if_pos hg]
    exact ⟨fun s hs => Or.inl hs, fun s hs => Or.inl hs⟩
  · rw [if_neg hg]
    have he : ¬pos.yahoo_ticker = "" ∧ pos.is_open = true := by
      constructor
      · intro hy
        exact hg (by simp [hy])
      · cases ho : pos.is_open
        · exact absurd (by simp [ho]) hg
        · rfl
    set st1 := priceStep prices u pos st with hst1
    set st2 := highStep targets u pos st1 with hst2
    constructor
    · intro s hs
      rw [(lowStep_log targets u pos st2).1, (highStep_log targets u pos st1).1] at hs
      rcases (priceStep_log prices u pos st).2 s hs with h | ⟨old, cand, hmk⟩
      · exact Or.inl h
      · exact Or.inr ⟨he.2, he.1, old, cand, hmk⟩
    · intro s hs
      rcases (lowStep_log targets u pos st2).2 s hs with h | ⟨old, cand, hmk⟩
      · rcases (highStep_log targets u pos st1).2 s h with h2 | ⟨old, cand, hmk⟩
        · rw [(priceStep_log prices u pos st).1] at h2
          exact Or.inl h2
        · exact Or.inr ⟨he.2, he.1, "high", old, cand, Or.inl rfl, hmk⟩
      · exact Or.inr ⟨he.2, he.1, "low", old, cand, Or.inr rfl, hmk⟩

/-- Change lines produced by the position loop come from the initial state
or from an eligible position of the list. -/
theorem foldl_log (prices : List (String × ℚ))
    (targets : Option (List (String × TargetData))) (u : ℚ) :
    ∀ (l : List Position) (st : St),
      (∀ s ∈ (l.foldl (processPos prices targets u) st).changes,
        s ∈ st.changes ∨ ∃ pos ∈ l, pos.is_open = true ∧ ¬pos.yahoo_ticker = "" ∧
          ∃ old cand, s = mkPriceChange pos.ticker old cand) ∧
      (∀ s ∈ (l.foldl (processPos prices targets u) st).targetChanges,
        s ∈ st.targetChanges ∨ ∃ pos ∈ l, pos.is_open = true ∧ ¬pos.yahoo_ticker = "" ∧
          ∃ k old cand, (k = "high" ∨ k = "low") ∧
            s = mkTargetChange pos.ticker k old cand) := by
  intro l
  induction l with
  | nil => intro st; exact ⟨fun s hs => Or.inl hs, fun s hs => Or.inl hs⟩
  | cons p ps ih =>
    intro st
    constructor
    · intro s hs
      rcases (ih (processPos prices targets u st p)).1 s hs with h | ⟨pos, hmem, hrest⟩
      · rcases (processPos_log prices targets u st p).1 s h with h' | ⟨ho, hy, old, cand, hmk⟩
        · exact Or.inl h'
        · exact Or.inr ⟨p, List.mem_cons_self p ps, ho, hy, old, cand, hmk⟩
      · exact Or.inr ⟨pos, List.mem_cons_of_mem p hmem, hrest⟩
    · intro s hs
      rcases (ih (processPos prices targets u st p)).2 s hs with h | ⟨pos, hmem, hrest⟩
      · rcases (processPos_log prices targets u st p).2 s h with h' | ⟨ho, hy, hk⟩
        · exact Or.inl h'
        · exact Or.inr ⟨p, List.mem_cons_self p ps, ho, hy, hk⟩
      · exact Or.inr ⟨pos, List.mem_cons_of_mem p hmem, hrest⟩

/-- The rate step only produces the rate-change line. -/
theorem rateStep_log (rate : ℚ) (c : List Token) :
    ∀ s ∈ (rateStep rate c).2, ∃ old, s = mkRateChange old rate := by
  cases hs : searchF "usd_to_eur" c with
  | none => simp [rateStep, hs]
  | some old =>
    by_cases h : |old - rate| > rateTol
    · simp only [rateStep, hs, if_pos h]
      exact fun s hsm => ⟨old, by simpa using hsm⟩
    · simp only [rateStep, hs, if_neg h]
      simp

/-- C3 amended: a closed record or a record with an absent external id is
never itself processed — its loop body is the identity — and every change
entry of a run is either the document-wide rate line or was produced by an
open position with a non-empty yahoo ticker (so no entry for an ineligible
record ever appears, whatever the observation set contains).  Its block's
bytes can still be altered as collateral of another record's patch, per the
counterexample. -/
theorem ineligible_never_patched :
    (∀ (prices : List (String × ℚ)) (targets : Option (List (String × TargetData)))
      (rate : ℚ) (st : St) (pos : Position),
      pos.is_open = false ∨ pos.yahoo_ticker = "" →
        processPos prices targets rate st pos = st) ∧
    (∀ (doc : List Token) (positions : List Position) (prices : List (String × ℚ))
      (rate : ℚ) (targets : Option (List (String × TargetData))) (dry : Bool)
      (today : String) (s : String),
      s ∈ (update_yaml_file doc positions prices rate targets dry today).changes →
        (∃ old, s = mkRateChange old rate) ∨
        ∃ pos ∈ positions, pos.is_open = true ∧ ¬pos.yahoo_ticker = "" ∧
          ∃ old cand, s = mkPriceChange pos.ticker old cand) ∧
    (∀ (doc : List Token) (positions : List Position) (prices : List (String × ℚ))
      (rate : ℚ) (targets : Option (List (String × TargetData))) (dry : Bool)
      (today : String) (s : String),
      s ∈ (update_yaml_file doc positions prices rate targets dry today).targetChanges →
        ∃ pos ∈ positions, pos.is_open = true ∧ ¬pos.yahoo_ticker = "" ∧
          ∃ k old cand, (k = "high" ∨ k = "low") ∧
            s = mkTargetChange pos.ticker k old cand) := by
  refine ⟨?_, ?_, ?_⟩
  · intro prices targets rate st pos h
    have hg : (pos.yahoo_ticker == "" || !pos.is_open) = true := by
      rcases h with h | h <;> simp [h]
    simp [processPos, hg]
  · intro doc positions prices rate targets dry today s hs
    simp only [update_yaml_file] at hs
    rcases (foldl_log prices targets rate positions
        ⟨dateStep today (rateStep rate doc).1, (rateStep rate doc).2, []⟩).1 s hs with
      h | hex
    · exact Or.inl (rateStep_log rate doc s h)
    · exact Or.inr hex
  · intro doc positions prices rate targets dry today s hs
    simp only [update_yaml_file] at hs
    rcases (foldl_log prices targets rate positions
        ⟨dateStep today (rateStep rate doc).1, (rateStep rate doc).2, []⟩).2 s hs with
      h | hex
    · exact absurd h (List.not_mem_nil s)
    · exact hex

/-- Witness: the loop body is the identity on the closed record. -/
theorem ineligible_never_patched_wit :
    processPos [] none 1 ⟨docT, [], []⟩ posBClosed = ⟨docT, [], []⟩ :=
  ineligible_never_patched.1 [] none 1 ⟨docT, [], []⟩ posBClosed (Or.inl rfl)

/-- C8 amended: the printed report consists of a price section — a header
plus one indented line per price change, or the single line "No significant
price changes" when empty — followed by a target section — a header plus one
indented line per target change, and nothing at all when empty.  Price lines
have the form `{ticker}: €{old:.2f} -> €{new:.2f} ({pct:+.1f}%)` with
`pct = (new-old)/old*100` guarded to 0 when `old` is not positive; target
lines have the form `{ticker} high|low: €{old:.2f} -> €{new:.2f}` with no
percentage.  Every line belongs to some position of the run (or is the rate
line, in the price section). -/
theorem report_structure (doc : List Token) (positions : List Position)
    (prices : List (String × ℚ)) (rate : ℚ)
    (targets : Option (List (String × TargetData))) (dry : Bool) (today : String) :
    (report (update_yaml_file doc positions prices rate targets dry today).changes
        (update_yaml_file doc positions prices rate targets dry today).targetChanges =
      (if (update_yaml_file doc positions prices rate targets dry today).changes.isEmpty
        then ["No significant price changes"]
        else "Price changes:" ::
          (update_yaml_file doc positions prices rate targets dry today).changes.map
            (fun s => "  " ++ s)) ++
      (if (update_yaml_file doc positions prices rate targets dry today).targetChanges.isEmpty
        then []
        else "Analyst target changes:" ::
          (update_yaml_file doc positions prices rate targets dry today).targetChanges.map
            (fun s => "  " ++ s))) ∧
    (∀ s ∈ (update_yaml_file doc positions prices rate targets dry today).changes,
      (∃ old, s = mkRateChange old rate) ∨
      ∃ pos ∈ positions, ∃ old cand, s = mkPriceChange pos.ticker old cand) ∧
    (∀ s ∈ (update_yaml_file doc positions prices rate targets dry today).targetChanges,
      ∃ pos ∈ positions, ∃ k old cand, (k = "high" ∨ k = "low") ∧
        s = mkTargetChange pos.ticker k old cand) ∧
    (∀ (tk : String) (oldP newP : ℚ),
      mkPriceChange tk oldP newP = tk ++ ": €" ++ fmtFixed 2 oldP ++ " -> €" ++
        fmtFixed 2 newP ++ " (" ++
        fmtPlus1 (if oldP > 0 then (newP - oldP) / oldP * 100 else 0) ++ "%)") ∧
    (∀ (tk k : String) (oldP newP : ℚ),
      mkTargetChange tk k oldP newP = tk ++ " " ++ k ++ ": €" ++ fmtFixed 2 oldP ++
        " -> €" ++ fmtFixed 2 newP) := by
  refine ⟨rfl, ?_, ?_, fun tk oldP newP => rfl, fun tk k oldP newP => rfl⟩
  · intro s hs
    rcases ineligible_never_patched.2.1 doc positions prices rate targets dry today s hs with
      h | ⟨pos, hmem, _, _, old, cand, hmk⟩
    · exact Or.inl h
    · exact Or.inr ⟨pos, hmem, old, cand, hmk⟩
  · intro s hs
    rcases ineligible_never_patched.2.2 doc positions prices rate targets dry today s hs with
      ⟨pos, hmem, _, _, hk⟩
    exact ⟨pos, hmem, hk⟩

/-- Witness: a concrete target-change line of the run is of the amended
no-percentage form. -/
theorem report_structure_wit :
    ∃ pos ∈ [posT], ∃ k old cand, (k = "high" ∨ k = "low") ∧
      mkTargetChange "T" "high" 10 20 = mkTargetChange pos.ticker k old cand := by
  have h1 : monTol < |(10:ℚ) - 20| := by norm_num [monTol]
  have h2 : roundTo 5 (20:ℚ) = 20 := by norm_num [roundTo, rhe]
  have hm : mkTargetChange "T" "high" 10 20 ∈
      (update_yaml_file docT [posT] [] 1 (some [("YT", ⟨some 20, none⟩)])
        false "d").targetChanges := by
    simp [update_yaml_file, docT, posT, rateStep, searchF, dateStep, dateTok,
      processPos, priceStep, highStep, lowStep, priceCand, highCand, lowCand,
      patchTF, searchTF, searchTFGo, subTF, subTFGo, List.lookup, h1, h2]
  exact (report_structure docT [posT] [] 1 (some [("YT", ⟨some 20, none⟩)])
    false "d").2.2.1 (mkTargetChange "T" "high" 10 20) hm

/-! Infrastructure for the idempotence analysis: shape preservation, the
correspondence between searches and match indices, and frame lemmas. -/

/-- The record-scoped substitution preserves shapes. -/
theorem shape_subTFGo (t f : String) (v : ℚ) :
    ∀ (l : List Token) (inM : Bool),
      (subTFGo t f v inM l).map Token.shape = l.map Token.shape := by
  intro l
  induction l with
  | nil => intro inM; rfl
  | cons tok ts ih =>
    intro inM
    cases tok with
    | marker m => simp [subTFGo, Token.shape, ih]
    | field n w =>
      by_cases hc : (inM && n == f) = true
      · simp [subTFGo, hc, Token.shape, ih]
      · simp [subTFGo, hc, Token.shape, ih]
    | date s => simp [subTFGo, Token.shape, ih]
    | text s => simp [subTFGo, Token.shape, ih]

/-- The document-wide substitution preserves shapes. -/
theorem shape_subF (f : String) (v : ℚ) (l : List Token) :
    (subF f v l).map Token.shape = l.map Token.shape := by
  induction l with
  | nil => rfl
  | cons tok ts ih =>
    simp only [subF, List.map_cons] at ih ⊢
    rw [ih]
    congr 1
    cases tok with
    | marker m => rfl
    | field n w =>
      by_cases hc : (n == f) = true <;> simp [hc, Token.shape]
    | date s => rfl
    | text s => rfl

/-- The date overwrite preserves shapes. -/
theorem shape_dateStep (today : String) (l : List Token) :
    (dateStep today l).map Token.shape = l.map Token.shape := by
  induction l with
  | nil => rfl
  | cons tok ts ih =>
    simp only [dateStep, List.map_cons] at ih ⊢
    rw [ih]
    congr 1
    cases tok with
    | marker m => rfl
    | field n w => rfl
    | date s => rfl
    | text s => rfl

/-- A successful patch returns the record-scoped substitution. -/
theorem patchTF_content_raw (t f : String) (cand : ℚ) (c c' : List Token)
    (old : ℚ) (h : patchTF t f cand c = some (c', old)) :
    c' = subTF t f (roundTo 5 cand) c ∧ searchTF t f c = some old ∧
      |old - cand| > monTol := by
  unfold patchTF at h
  cases hs : searchTF t f c with
  | none => rw [hs] at h; exact absurd h (by simp)
  | some w =>
    rw [hs] at h
    dsimp only at h
    by_cases hd : |w - cand| > monTol
    · rw [if_pos hd] at h
      have h2 : subTF t f (roundTo 5 cand) c = c' ∧ w = old := by
        simpa [Prod.ext_iff] using h
      exact ⟨h2.1.symm, by rw [h2.2], h2.2 ▸ hd⟩
    · rw [if_neg hd] at h; exact absurd h (by simp)

/-- A failed patch means no match or a within-tolerance delta. -/
theorem patchTF_none_inv (t f : String) (cand : ℚ) (c : List Token)
    (h : patchTF t f cand c = none) :
    searchTF t f c = none ∨
    ∃ old, searchTF t f c = some old ∧ ¬(|old - cand| > monTol) := by
  unfold patchTF at h
  cases hs : searchTF t f c with
  | none => exact Or.inl rfl
  | some w =>
    rw [hs] at h
    dsimp only at h
    by_cases hd : |w - cand| > monTol
    · rw [if_pos hd] at h; exact absurd h (by simp)
    · exact Or.inr ⟨w, rfl, hd⟩

/-- The shape of a patch result matches its input's shape. -/
theorem shape_patchTF (t f : String) (cand : ℚ) (c c' : List Token) (old : ℚ)
    (h : patchTF t f cand c = some (c', old)) :
    c'.map Token.shape = c.map Token.shape := by
  rw [(patchTF_content_raw t f cand c c' old h).1]
  exact shape_subTFGo t f (roundTo 5 cand) c false

/-- The price block preserves shapes. -/
theorem shape_priceStep (prices : List (String × ℚ)) (u : ℚ) (pos : Position)
    (st : St) :
    (priceStep prices u pos st).content.map Token.shape =
      st.content.map Token.shape := by
  cases hpc : priceCand prices u pos with
  | none => simp [priceStep, hpc]
  | some cand =>
    cases hpt : patchTF pos.ticker "current_price_eur" cand st.content with
    | none => simp [priceStep, hpc, hpt]
    | some pr =>
      obtain ⟨c, old⟩ := pr
      simp only [priceStep, hpc, hpt]
      exact shape_patchTF _ _ _ _ _ _ hpt

/-- The analyst-high block preserves shapes. -/
theorem shape_highStep (targets : Option (List (String × TargetData))) (u : ℚ)
    (pos : Position) (st : St) :
    (highStep targets u pos st).content.map Token.shape =
      st.content.map Token.shape := by
  cases hpc : highCand targets u pos with
  | none => simp [highStep, hpc]
  | some cand =>
    cases hpt : patchTF pos.ticker "target_high_eur" cand st.content with
    | none => simp [highStep, hpc, hpt]
    | some pr =>
      obtain ⟨c, old⟩ := pr
      simp only [highStep, hpc, hpt]
      exact shape_patchTF _ _ _ _ _ _ hpt

/-- The analyst-low block preserves shapes. -/
theorem shape_lowStep (targets : Option (List (String × TargetData))) (u : ℚ)
    (pos : Position) (st : St) :
    (lowStep targets u pos st).content.map Token.shape =
      st.content.map Token.shape := by
  cases hpc : lowCand targets u pos with
  | none => simp [lowStep, hpc]
  | some cand =>
    cases hpt : patchTF pos.ticker "target_low_eur" cand st.content with
    | none => simp [lowStep, hpc, hpt]
    | some pr =>
      obtain ⟨c, old⟩ := pr
      simp only [lowStep, hpc, hpt]
      exact shape_patchTF _ _ _ _ _ _ hpt

/-- The loop body preserves shapes. -/
theorem shape_processPos (prices : List (String × ℚ))
    (targets : Option (List (String × TargetData))) (u : ℚ) (st : St)
    (pos : Position) :
    (processPos prices targets u st pos).content.map Token.shape =
      st.content.map Token.shape := by
  unfold processPos
  by_cases hg : (pos.yahoo_ticker == "" || !pos.is_open) = true
  · rw [if_pos hg]
  · rw [if_neg hg]
    rw [shape_lowStep, shape_highStep, shape_priceStep]

/-- The whole position loop preserves shapes. -/
theorem shape_foldl (prices : List (String × ℚ))
    (targets : Option (List (String × TargetData))) (u : ℚ) :
    ∀ (l : List Position) (st : St),
      (l.foldl (processPos prices targets u) st).content.map Token.shape =
        st.content.map Token.shape := by
  intro l
  induction l with
  | nil => intro st; rfl
  | cons q qs ih =>
    intro st
    rw [List.foldl_cons, ih, shape_processPos]

/-- Shape-equal documents share their match indices. -/
theorem tIdx_congr (t f : String) (l1 l2 : List Token)
    (h : l1.map Token.shape = l2.map Token.shape) : tIdx t f l1 = tIdx t f l2 := by
  unfold tIdx
  rw [h]

/-- Shifting `litAt` under a cons. -/
theorem litAt_cons_succ (tok : Token) (ts : List Token) (j : Nat) :
    litAt (tok :: ts) (j + 1) = litAt ts j := rfl

/-- Reading a field token gives its literal. -/
theorem litAt_eq (l : List Token) (i : Nat) (n : String) (w : ℚ)
    (h : l.get? i = some (.field n w)) : litAt l i = some w := by
  unfold litAt
  rw [h]

/-- The record-scoped search returns the literal at its match index. -/
theorem searchTFGo_bind (t f : String) :
    ∀ (l : List Token) (inM : Bool),
      searchTFGo t f inM l =
        (shTFGo t f inM (l.map Token.shape)).bind (litAt l) := by
  intro l
  induction l with
  | nil => intro inM; rfl
  | cons tok ts ih =>
    intro inM
    cases tok with
    | marker m =>
      simp only [searchTFGo, List.map_cons, Token.shape, shTFGo, ih]
      cases ho : shTFGo t f (inM || m == t) (ts.map Token.shape) <;>
        simp [ho, litAt_cons_succ]
    | field n w =>
      by_cases hc : (inM && n == f) = true
      · simp only [searchTFGo, List.map_cons, Token.shape, shTFGo, if_pos hc]
        rfl
      · simp only [searchTFGo, List.map_cons, Token.shape, shTFGo, if_neg hc, ih]
        cases ho : shTFGo t f inM (ts.map Token.shape) <;>
          simp [ho, litAt_cons_succ]
    | date s =>
      simp only [searchTFGo, List.map_cons, Token.shape, shTFGo, ih]
      cases ho : shTFGo t f inM (ts.map Token.shape) <;>
        simp [ho, litAt_cons_succ]
    | text s =>
      simp only [searchTFGo, List.map_cons, Token.shape, shTFGo, ih]
      cases ho : shTFGo t f inM (ts.map Token.shape) <;>
        simp [ho, litAt_cons_succ]

/-- With a match index, the search reads that token's literal. -/
theorem searchTF_eq_litAt (t f : String) (l : List Token) (i : Nat)
    (hi : tIdx t f l = some i) : searchTF t f l = litAt l i := by
  rw [searchTF, searchTFGo_bind]
  rw [tIdx] at hi
  rw [hi]
  rfl

/-- With no match index the search fails. -/
theorem searchTF_eq_none (t f : String) (l : List Token)
    (hi : tIdx t f l = none) : searchTF t f l = none := by
  rw [searchTF, searchTFGo_bind]
  rw [tIdx] at hi
  rw [hi]
  rfl

/-- The document-wide search returns the literal at the first field of that
name. -/
theorem searchF_bind (f : String) :
    ∀ l : List Token,
      searchF f l = (shFGo f (l.map Token.shape)).bind (litAt l) := by
  intro l
  induction l with
  | nil => rfl
  | cons tok ts ih =>
    cases tok with
    | marker m =>
      simp only [searchF, List.map_cons, Token.shape, shFGo, ih]
      cases ho : shFGo f (ts.map Token.shape) <;> simp [ho, litAt_cons_succ]
    | field n w =>
      by_cases hc : (n == f) = true
      · simp only [searchF, List.map_cons, Token.shape, shFGo, if_pos hc]
        rfl
      · simp only [searchF, List.map_cons, Token.shape, shFGo, if_neg hc, ih]
        cases ho : shFGo f (ts.map Token.shape) <;> simp [ho, litAt_cons_succ]
    | date s =>
      simp only [searchF, List.map_cons, Token.shape, shFGo, ih]
      cases ho : shFGo f (ts.map Token.shape) <;> simp [ho, litAt_cons_succ]
    | text s =>
      simp only [searchF, List.map_cons, Token.shape, shFGo, ih]
      cases ho : shFGo f (ts.map Token.shape) <;> simp [ho, litAt_cons_succ]

/-- The first-field index carries a field of the searched name. -/
theorem shFGo_field (f : String) :
    ∀ (s : List Sh) (i : Nat), shFGo f s = some i →
      s.get? i = some (.field f) := by
  intro s
  induction s with
  | nil => intro i h; exact absurd h (by simp [shFGo])
  | cons sh ss ih =>
    intro i h
    cases sh with
    | marker m =>
      simp only [shFGo, Option.map_eq_some'] at h
      obtain ⟨i', hi', rfl⟩ := h
      simpa using ih _ hi'
    | field n =>
      rw [shFGo] at h
      by_cases hc : (n == f) = true
      · rw [if_pos hc] at h
        have hi0 : i = 0 := by simpa using h.symm
        subst hi0
        have : n = f := by simpa using hc
        subst this
        rfl
      · rw [if_neg hc, Option.map_eq_some'] at h
        obtain ⟨i', hi', rfl⟩ := h
        simpa using ih _ hi'
    | date =>
      simp only [shFGo, Option.map_eq_some'] at h
      obtain ⟨i', hi', rfl⟩ := h
      simpa using ih _ hi'
    | text s' =>
      simp only [shFGo, Option.map_eq_some'] at h
      obtain ⟨i', hi', rfl⟩ := h
      simpa using ih _ hi'

/-- The record-scoped substitution changes at most the literals of fields of
the substituted name, and always to the substituted value. -/
theorem subTFGo_dichotomy (t f : String) (v : ℚ) :
    ∀ (l : List Token) (inM : Bool) (j : Nat),
      (subTFGo t f v inM l).get? j = l.get? j ∨
      ∃ w, l.get? j = some (.field f w) ∧
        (subTFGo t f v inM l).get? j = some (.field f v) := by
  intro l
  induction l with
  | nil => intro inM j; left; rfl
  | cons tok ts ih =>
    intro inM j
    cases tok with
    | marker m =>
      cases j with
      | zero => left; rfl
      | succ j' =>
        simp only [subTFGo, List.get?_cons_succ]
        exact ih (inM || m == t) j'
    | field n w =>
      by_cases hc : (inM && n == f) = true
      · cases j with
        | zero =>
          right
          have hn : n = f := by
            have h2 := hc
            simp only [Bool.and_eq_true, beq_iff_eq] at h2
            exact h2.2
          subst hn
          have hin : inM = true := by
            have h2 := hc
            simp only [Bool.and_eq_true] at h2
            exact h2.1
          exact ⟨w, rfl, by simp [subTFGo, hin]⟩
        | succ j' =>
          simp only [subTFGo, if_pos hc, List.get?_cons_succ]
          exact ih false j'
      · cases j with
        | zero => left; simp [subTFGo, hc]
        | succ j' =>
          simp only [subTFGo, if_neg hc, List.get?_cons_succ]
          exact ih inM j'
    | date s =>
      cases j with
      | zero => left; rfl
      | succ j' =>
        simp only [subTFGo, List.get?_cons_succ]
        exact ih inM j'
    | text s =>
      cases j with
      | zero => left; rfl
      | succ j' =>
        simp only [subTFGo, List.get?_cons_succ]
        exact ih inM j'

/-- The same dichotomy for the document-wide substitution. -/
theorem subF_dichotomy (f : String) (v : ℚ) (l : List Token) (j : Nat) :
    (subF f v l).get? j = l.get? j ∨
    ∃ w, l.get? j = some (.field f w) ∧
      (subF f v l).get? j = some (.field f v) := by
  rw [subF, List.get?_map]
  cases he : l.get? j with
  | none => left; rfl
  | some tok =>
    cases tok with
    | marker m => left; rfl
    | field n w =>
      by_cases hc : (n == f) = true
      · right
        have hn : n = f := by simpa using hc
        subst hn
        exact ⟨w, rfl, by simp [hc]⟩
      · left
        exact congrArg some (if_neg hc)
    | date s => left; rfl
    | text s => left; rfl

/-- The document-wide substitution rewrites every field of its name. -/
theorem subF_get?_eq (f : String) (v : ℚ) (l : List Token) (j : Nat) (w : ℚ)
    (h : l.get? j = some (.field f w)) :
    (subF f v l).get? j = some (.field f v) := by
  rw [subF, List.get?_map, h]
  simp

/-- The date overwrite leaves field tokens unchanged. -/
theorem dateStep_field (today : String) (l : List Token) (j : Nat) (n : String)
    (w : ℚ) (h : l.get? j = some (.field n w)) :
    (dateStep today l).get? j = some (.field n w) := by
  rw [dateStep, List.get?_map, h]
  rfl

/-- After the date overwrite every date token reads today. -/
theorem datesAre_dateStep (today : String) (l : List Token) :
    datesAre today (dateStep today l) := by
  intro j s h
  rw [dateStep, List.get?_map] at h
  cases he : l.get? j with
  | none => rw [he] at h; simp at h
  | some tok =>
    rw [he] at h
    cases tok with
    | marker m => simp [dateTok] at h
    | field n w => simp [dateTok] at h
    | date s' =>
      have : Token.date today = Token.date s := by simpa [dateTok] using h
      cases this
      rfl
    | text s' => simp [dateTok] at h

/-! Numeric bounds for the rounding of substituted values. -/

/-- Round-half-even is within a half of its argument. -/
theorem rhe_sub_abs_le (x : ℚ) : |(rhe x : ℚ) - x| ≤ 1/2 := by
  have h0 : ((⌊x⌋ : ℤ) : ℚ) ≤ x := Int.floor_le x
  have h1 : x < ⌊x⌋ + 1 := Int.lt_floor_add_one x
  simp only [rhe]
  by_cases ha : x - (⌊x⌋ : ℚ) < 1/2
  · rw [if_pos ha, abs_sub_comm, abs_of_nonneg (by linarith)]
    linarith
  · by_cases hb : (1:ℚ)/2 < x - (⌊x⌋ : ℚ)
    · rw [if_neg ha, if_pos hb]
      push_cast
      rw [abs_of_nonneg (by linarith)]
      linarith
    · rw [if_neg ha, if_neg hb]
      by_cases hd : (2 : ℤ) ∣ ⌊x⌋
      · rw [if_pos hd, abs_sub_comm, abs_of_nonneg (by linarith)]
        linarith
      · rw [if_neg hd]
        push_cast
        rw [abs_of_nonneg (by linarith)]
        linarith

/-- The substituted fixed-precision value is within half an ulp. -/
theorem roundTo_sub_abs_le (p : Nat) (x : ℚ) :
    |roundTo p x - x| ≤ 1 / (2 * 10 ^ p) := by
  have h := rhe_sub_abs_le (x * 10 ^ p)
  have hp : (0:ℚ) < 10 ^ p := by positivity
  rw [roundTo,
    show (rhe (x * 10 ^ p) : ℚ) / 10 ^ p - x =
      ((rhe (x * 10 ^ p) : ℚ) - x * 10 ^ p) / 10 ^ p from by field_simp; ring,
    abs_div, abs_of_pos hp,
    show (1:ℚ) / (2 * 10 ^ p) = (1/2) / 10 ^ p from by ring]
  gcongr

/-- A 5-decimal rounding never exceeds the monetary tolerance. -/
theorem roundTo5_ok (cand : ℚ) : ¬(|roundTo 5 cand - cand| > monTol) := by
  have h := roundTo_sub_abs_le 5 cand
  have : |roundTo 5 cand - cand| ≤ monTol := le_trans h (by norm_num [monTol])
  exact not_lt.mpr this

/-- A 4-decimal rounding never exceeds the rate tolerance. -/
theorem roundTo4_ok (u : ℚ) : ¬(|roundTo 4 u - u| > rateTol) := by
  have h := roundTo_sub_abs_le 4 u
  have : |roundTo 4 u - u| ≤ rateTol := le_trans h (by norm_num [rateTol])
  exact not_lt.mpr this

/-! Marker counting. -/

/-- Marker counts are a function of the shape. -/
theorem countM_eq_countMs (t : String) :
    ∀ l : List Token, countM t l = countMs t (l.map Token.shape) := by
  intro l
  induction l with
  | nil => rfl
  | cons tok ts ih =>
    cases tok with
    | marker m => simp [countM, countMs, Token.shape, ih]
    | field n w => simp [countM, countMs, Token.shape, ih]
    | date s => simp [countM, countMs, Token.shape, ih]
    | text s => simp [countM, countMs, Token.shape, ih]

/-- Shape-equal documents have equal marker counts. -/
theorem countM_congr (t : String) (l1 l2 : List Token)
    (h : l1.map Token.shape = l2.map Token.shape) : countM t l1 = countM t l2 := by
  rw [countM_eq_countMs, countM_eq_countMs, h]

/-- A ticker absent from the marker list has count zero. -/
theorem countM_eq_zero_of_not_mem (t : String) :
    ∀ l : List Token, t ∉ markersOf l → countM t l = 0 := by
  intro l
  induction l with
  | nil => intro _; rfl
  | cons tok ts ih =>
    intro h
    cases tok with
    | marker m =>
      rw [show markersOf (Token.marker m :: ts) = m :: markersOf ts from by
        simp [markersOf]] at h
      simp only [List.mem_cons, not_or] at h
      have hm : (m == t) = false := beq_eq_false_iff_ne.mpr fun he => h.1 he.symm
      simp [countM, hm, ih h.2]
    | field n w =>
      rw [show markersOf (Token.field n w :: ts) = markersOf ts from by
        simp [markersOf]] at h
      simp [countM, ih h]
    | date s =>
      rw [show markersOf (Token.date s :: ts) = markersOf ts from by
        simp [markersOf]] at h
      simp [countM, ih h]
    | text s =>
      rw [show markersOf (Token.text s :: ts) = markersOf ts from by
        simp [markersOf]] at h
      simp [countM, ih h]

/-- Marker uniqueness bounds every marker count by one. -/
theorem markersUnique_count (l : List Token) (h : markersUnique l) :
    ∀ t, countM t l ≤ 1 := by
  induction l with
  | nil => intro t; simp [countM]
  | cons tok ts ih =>
    intro t
    cases tok with
    | marker m =>
      have h2 : m ∉ markersOf ts ∧ (markersOf ts).Nodup := by
        simpa [markersUnique, markersOf] using h
      by_cases hm : (m == t) = true
      · have hmt : m = t := by simpa using hm
        subst hmt
        simp [countM, hm, countM_eq_zero_of_not_mem m ts h2.1]
      · simp only [countM, hm, if_neg]
        simpa using ih (by simpa [markersUnique, markersOf] using h2.2) t
    | field n w =>
      have h2 : (markersOf ts).Nodup := by simpa [markersUnique, markersOf] using h
      simpa [countM] using ih h2 t
    | date s =>
      have h2 : (markersOf ts).Nodup := by simpa [markersUnique, markersOf] using h
      simpa [countM] using ih h2 t
    | text s =>
      have h2 : (markersOf ts).Nodup := by simpa [markersUnique, markersOf] using h
      simpa [countM] using ih h2 t

/-- Match indices for different field names never coincide. -/
theorem sIdx_name_ne (t1 f1 t2 f2 : String) (s : List Sh) (i j : Nat)
    (h1 : sIdx t1 f1 s = some i) (h2 : sIdx t2 f2 s = some j)
    (hf : f1 ≠ f2) : i ≠ j := by
  intro he
  subst he
  have e1 := shTFGo_field t1 f1 s false i h1
  have e2 := shTFGo_field t2 f2 s false i h2
  rw [e1] at e2
  have : f1 = f2 := by simpa using e2
  exact hf this

/-- Positions of two field shapes with different names differ. -/
theorem idx_field_ne (s : List Sh) (i j : Nat) (f g : String)
    (hi : s.get? i = some (.field f)) (hj : s.get? j = some (.field g))
    (hfg : f ≠ g) : i ≠ j := by
  intro he
  subst he
  rw [hi] at hj
  exact hfg (by simpa using hj)

/-- A successful patch is a single-literal modification at the match index. -/
theorem patchTF_content (t f : String) (cand : ℚ) (c c' : List Token) (old : ℚ)
    (hMU : countM t c ≤ 1) (h : patchTF t f cand c = some (c', old)) :
    ∃ i, tIdx t f c = some i ∧ c' = modLit (roundTo 5 cand) i c := by
  have hraw := patchTF_content_raw t f cand c c' old h
  cases hi : tIdx t f c with
  | none =>
    rw [searchTF_eq_none t f c hi] at hraw
    exact absurd hraw.2.1 (by simp)
  | some i =>
    exact ⟨i, rfl, by
      rw [hraw.1]
      exact subTF_eq_modLit t f (roundTo 5 cand) c i hMU hi⟩

/-- A field patch never touches a field of a different name. -/
theorem patch_preserve_ne (t g : String) (cand : ℚ) (c : List Token) (j : Nat)
    (n : String) (w : ℚ) (hne : n ≠ g) (hg : c.get? j = some (.field n w)) :
    (match patchTF t g cand c with
     | none => c
     | some (c', _) => c').get? j = some (.field n w) := by
  cases hpt : patchTF t g cand c with
  | none => exact hg
  | some pr =>
    obtain ⟨c', old⟩ := pr
    have hc' := (patchTF_content_raw t g cand c c' old hpt).1
    dsimp only
    rw [hc']
    rcases subTFGo_dichotomy t g (roundTo 5 cand) c false j with h | ⟨w', hw', _⟩
    · rw [show subTF t g (roundTo 5 cand) c = subTFGo t g (roundTo 5 cand) false c
        from rfl, h]
      exact hg
    · rw [hg] at hw'
      have h2 : n = g ∧ w = w' := by simpa using hw'
      exact absurd h2.1 hne

/-- A field patch never touches a non-field token. -/
theorem patch_preserve_nonfield (t g : String) (cand : ℚ) (c : List Token)
    (j : Nat) (tok : Token) (htok : ∀ n w, tok ≠ Token.field n w)
    (h : c.get? j = some tok) :
    (match patchTF t g cand c with
     | none => c
     | some (c', _) => c').get? j = some tok := by
  cases hpt : patchTF t g cand c with
  | none => exact h
  | some pr =>
    obtain ⟨c', old⟩ := pr
    have hc' := (patchTF_content_raw t g cand c c' old hpt).1
    dsimp only
    rw [hc']
    rcases subTFGo_dichotomy t g (roundTo 5 cand) c false j with hd | ⟨w', hw', _⟩
    · rw [show subTF t g (roundTo 5 cand) c = subTFGo t g (roundTo 5 cand) false c
        from rfl, hd]
      exact h
    · rw [h] at hw'
      have : tok = Token.field g w' := by simpa using hw'
      exact absurd this (htok g w')

/-- A field patch leaves tokens outside its own match index unchanged. -/
theorem patch_frame (t g : String) (cand : ℚ) (c : List Token) (j : Nat)
    (hMU : countM t c ≤ 1)
    (hj : ∀ i, tIdx t g c = some i → i ≠ j) :
    (match patchTF t g cand c with
     | none => c
     | some (c', _) => c').get? j = c.get? j := by
  cases hpt : patchTF t g cand c with
  | none => rfl
  | some pr =>
    obtain ⟨c', old⟩ := pr
    obtain ⟨i, hi, hmod⟩ := patchTF_content t g cand c c' old hMU hpt
    dsimp only
    rw [hmod]
    exact modLit_get?_ne _ _ _ _ (Ne.symm (hj i hi))

/-- A field patch lands the token at its match index within tolerance of the
candidate. -/
theorem patch_achieves (t f : String) (cand : ℚ) (c : List Token) (i : Nat)
    (hMU : countM t c ≤ 1) (hi : tIdx t f c = some i) :
    ∃ w, (match patchTF t f cand c with
      | none => c
      | some (c', _) => c').get? i = some (.field f w) ∧
      ¬(|w - cand| > monTol) := by
  obtain ⟨w0, hw0⟩ := tIdx_field t f c i hi
  cases hpt : patchTF t f cand c with
  | none =>
    rcases patchTF_none_inv t f cand c hpt with hs | ⟨old, hs, hd⟩
    · rw [searchTF_eq_litAt t f c i hi, litAt_eq c i f w0 hw0] at hs
      exact absurd hs (by simp)
    · rw [searchTF_eq_litAt t f c i hi, litAt_eq c i f w0 hw0] at hs
      have : w0 = old := by simpa using hs
      subst this
      exact ⟨w0, hw0, hd⟩
  | some pr =>
    obtain ⟨c', old⟩ := pr
    obtain ⟨i', hi', hmod⟩ := patchTF_content t f cand c c' old hMU hpt
    have hii : i' = i := by
      rw [hi] at hi'
      simpa using hi'.symm
    subst hii
    refine ⟨roundTo 5 cand, ?_, roundTo5_ok cand⟩
    dsimp only
    rw [hmod]
    exact modLit_get?_eq (roundTo 5 cand) c i' f w0 hw0

/-! Content equations for the three patch blocks. -/

theorem priceStep_content_none (prices : List (String × ℚ)) (u : ℚ)
    (pos : Position) (st : St) (hpc : priceCand prices u pos = none) :
    (priceStep prices u pos st).content = st.content := by
  simp [priceStep, hpc]

theorem priceStep_content_eq (prices : List (String × ℚ)) (u : ℚ)
    (pos : Position) (st : St) (cand : ℚ)
    (hpc : priceCand prices u pos = some cand) :
    (priceStep prices u pos st).content =
      (match patchTF pos.ticker "current_price_eur" cand st.content with
       | none => st.content
       | some (c', _) => c') := by
  cases hpt : patchTF pos.ticker "current_price_eur" cand st.content with
  | none => simp [priceStep, hpc, hpt]
  | some pr =>
    obtain ⟨c', old⟩ := pr
    simp [priceStep, hpc, hpt]

theorem highStep_content_none (targets : Option (List (String × TargetData)))
    (u : ℚ) (pos : Position) (st : St) (hpc : highCand targets u pos = none) :
    (highStep targets u pos st).content = st.content := by
  simp [highStep, hpc]

theorem highStep_content_eq (targets : Option (List (String × TargetData)))
    (u : ℚ) (pos : Position) (st : St) (cand : ℚ)
    (hpc : highCand targets u pos = some cand) :
    (highStep targets u pos st).content =
      (match patchTF pos.ticker "target_high_eur" cand st.content with
       | none => st.content
       | some (c', _) => c') := by
  cases hpt : patchTF pos.ticker "target_high_eur" cand st.content with
  | none => simp [highStep, hpc, hpt]
  | some pr =>
    obtain ⟨c', old⟩ := pr
    simp [highStep, hpc, hpt]

theorem lowStep_content_none (targets : Option (List (String × TargetData)))
    (u : ℚ) (pos : Position) (st : St) (hpc : lowCand targets u pos = none) :
    (lowStep targets u pos st).content = st.content := by
  simp [lowStep, hpc]

theorem lowStep_content_eq (targets : Option (List (String × TargetData)))
    (u : ℚ) (pos : Position) (st : St) (cand : ℚ)
    (hpc : lowCand targets u pos = some cand) :
    (lowStep targets u pos st).content =
      (match patchTF pos.ticker "target_low_eur" cand st.content with
       | none => st.content
       | some (c', _) => c') := by
  cases hpt : patchTF pos.ticker "target_low_eur" cand st.content with
  | none => simp [lowStep, hpc, hpt]
  | some pr =>
    obtain ⟨c', old⟩ := pr
    simp [lowStep, hpc, hpt]

/-! Per-step preservation of fields of other names. -/

theorem priceStep_preserve (prices : List (String × ℚ)) (u : ℚ) (pos : Position)
    (st : St) (j : Nat) (n : String) (w : ℚ) (hne : n ≠ "current_price_eur")
    (h : st.content.get? j = some (.field n w)) :
    (priceStep prices u pos st).content.get? j = some (.field n w) := by
  cases hpc : priceCand prices u pos with
  | none => rw [priceStep_content_none prices u pos st hpc]; exact h
  | some cand =>
    rw [priceStep_content_eq prices u pos st cand hpc]
    exact patch_preserve_ne pos.ticker "current_price_eur" cand st.content j n w hne h

theorem highStep_preserve (targets : Option (List (String × TargetData))) (u : ℚ)
    (pos : Position) (st : St) (j : Nat) (n : String) (w : ℚ)
    (hne : n ≠ "target_high_eur")
    (h : st.content.get? j = some (.field n w)) :
    (highStep targets u pos st).content.get? j = some (.field n w) := by
  cases hpc : highCand targets u pos with
  | none => rw [highStep_content_none targets u pos st hpc]; exact h
  | some cand =>
    rw [highStep_content_eq targets u pos st cand hpc]
    exact patch_preserve_ne pos.ticker "target_high_eur" cand st.content j n w hne h

theorem lowStep_preserve (targets : Option (List (String × TargetData))) (u : ℚ)
    (pos : Position) (st : St) (j : Nat) (n : String) (w : ℚ)
    (hne : n ≠ "target_low_eur")
    (h : st.content.get? j = some (.field n w)) :
    (lowStep targets u pos st).content.get? j = some (.field n w) := by
  cases hpc : lowCand targets u pos with
  | none => rw [lowStep_content_none targets u pos st hpc]; exact h
  | some cand =>
    rw [lowStep_content_eq targets u pos st cand hpc]
    exact patch_preserve_ne pos.ticker "target_low_eur" cand st.content j n w hne h

/-- Decomposition of a membership in `posCands`. -/
theorem posCands_elim (f : String) (cand : ℚ) (o : Option ℚ) (nm : String)
    (hm : (f, cand) ∈ (o.map fun c => (nm, c)).toList) :
    f = nm ∧ o = some cand := by
  cases o with
  | none => simp at hm
  | some c =>
    simp only [Option.map_some'] at hm
    have : (f, cand) = (nm, c) := by simpa using hm
    obtain ⟨h1, h2⟩ := Prod.mk.injEq .. ▸ this
    exact ⟨by simpa using h1, by rw [show cand = c from by simpa using h2]⟩

/-- A position's loop body lands the token at each of its match indices
within tolerance of the corresponding candidate. -/
theorem processPos_achieves (prices : List (String × ℚ))
    (targets : Option (List (String × TargetData))) (u : ℚ) (st : St)
    (pos : Position) (f : String) (cand : ℚ) (i : Nat)
    (hMU : ∀ t', countM t' st.content ≤ 1)
    (hel : (pos.yahoo_ticker == "" || !pos.is_open) = false)
    (hfc : (f, cand) ∈ posCands prices targets u pos)
    (hi : tIdx pos.ticker f st.content = some i) :
    ∃ w, (processPos prices targets u st pos).content.get? i =
      some (.field f w) ∧ ¬(|w - cand| > monTol) := by
  have hgne : ¬((pos.yahoo_ticker == "" || !pos.is_open) = true) := by simp [hel]
  rw [posCands] at hfc
  rcases List.mem_append.mp hfc with hph | hl
  · rcases List.mem_append.mp hph with hp | hh
    · obtain ⟨hf, hpc⟩ := posCands_elim f cand _ _ hp
      subst hf
      obtain ⟨w, hw, hd⟩ := patch_achieves pos.ticker "current_price_eur" cand
        st.content i (hMU _) hi
      refine ⟨w, ?_, hd⟩
      unfold processPos
      rw [if_neg hgne]
      have h1 : (priceStep prices u pos st).content.get? i =
          some (.field "current_price_eur" w) := by
        rw [priceStep_content_eq prices u pos st cand hpc]
        exact hw
      have h2 := highStep_preserve targets u pos (priceStep prices u pos st) i _ w
        (by decide) h1
      exact lowStep_preserve targets u pos _ i _ w (by decide) h2
    · obtain ⟨hf, hhc⟩ := posCands_elim f cand _ _ hh
      subst hf
      obtain ⟨w0, hw0⟩ := tIdx_field pos.ticker "target_high_eur" st.content i hi
      have h1 : (priceStep prices u pos st).content.get? i =
          some (.field "target_high_eur" w0) :=
        priceStep_preserve prices u pos st i _ w0 (by decide) hw0
      have hsh := shape_priceStep prices u pos st
      have hi1 : tIdx pos.ticker "target_high_eur"
          (priceStep prices u pos st).content = some i := by
        rw [tIdx_congr _ _ _ _ hsh]
        exact hi
      have hMU1 : countM pos.ticker (priceStep prices u pos st).content ≤ 1 := by
        rw [countM_congr _ _ _ hsh]
        exact hMU _
      obtain ⟨w, hw, hd⟩ := patch_achieves pos.ticker "target_high_eur" cand
        (priceStep prices u pos st).content i hMU1 hi1
      refine ⟨w, ?_, hd⟩
      unfold processPos
      rw [if_neg hgne]
      have h2 : (highStep targets u pos (priceStep prices u pos st)).content.get? i =
          some (.field "target_high_eur" w) := by
        rw [highStep_content_eq targets u pos _ cand hhc]
        exact hw
      exact lowStep_preserve targets u pos _ i _ w (by decide) h2
  · obtain ⟨hf, hlc⟩ := posCands_elim f cand _ _ hl
    subst hf
    obtain ⟨w0, hw0⟩ := tIdx_field pos.ticker "target_low_eur" st.content i hi
    have h1 : (priceStep prices u pos st).content.get? i =
        some (.field "target_low_eur" w0) :=
      priceStep_preserve prices u pos st i _ w0 (by decide) hw0
    have h2 := highStep_preserve targets u pos (priceStep prices u pos st) i _ w0
      (by decide) h1
    have hsh2 : (highStep targets u pos (priceStep prices u pos st)).content.map
        Token.shape = st.content.map Token.shape :=
      (shape_highStep targets u pos _).trans (shape_priceStep prices u pos st)
    have hi2 : tIdx pos.ticker "target_low_eur"
        (highStep targets u pos (priceStep prices u pos st)).content = some i := by
      rw [tIdx_congr _ _ _ _ hsh2]
      exact hi
    have hMU2 : countM pos.ticker
        (highStep targets u pos (priceStep prices u pos st)).content ≤ 1 := by
      rw [countM_congr _ _ _ hsh2]
      exact hMU _
    obtain ⟨w, hw, hd⟩ := patch_achieves pos.ticker "target_low_eur" cand
      (highStep targets u pos (priceStep prices u pos st)).content i hMU2 hi2
    refine ⟨w, ?_, hd⟩
    unfold processPos
    rw [if_neg hgne]
    rw [lowStep_content_eq targets u pos _ cand hlc]
    exact hw

/-- A position's loop body leaves every index outside its own match indices
unchanged. -/
theorem processPos_frame (prices : List (String × ℚ))
    (targets : Option (List (String × TargetData))) (u : ℚ) (st : St)
    (pos : Position) (j : Nat)
    (hMU : ∀ t', countM t' st.content ≤ 1)
    (hj : ∀ f ∈ fieldNames, ∀ i, tIdx pos.ticker f st.content = some i → i ≠ j) :
    (processPos prices targets u st pos).content.get? j = st.content.get? j := by
  unfold processPos
  by_cases hg : (pos.yahoo_ticker == "" || !pos.is_open) = true
  · rw [if_pos hg]
  · rw [if_neg hg]
    have hsh1 := shape_priceStep prices u pos st
    have hsh2 : (highStep targets u pos (priceStep prices u pos st)).content.map
        Token.shape = st.content.map Token.shape :=
      (shape_highStep targets u pos _).trans hsh1
    have f1 : (priceStep prices u pos st).content.get? j = st.content.get? j := by
      cases hpc : priceCand prices u pos with
      | none => rw [priceStep_content_none prices u pos st hpc]
      | some cand =>
        rw [priceStep_content_eq prices u pos st cand hpc]
        exact patch_frame pos.ticker "current_price_eur" cand st.content j (hMU _)
          (hj "current_price_eur" (by decide))
    have f2 : (highStep targets u pos (priceStep prices u pos st)).content.get? j =
        (priceStep prices u pos st).content.get? j := by
      cases hpc : highCand targets u pos with
      | none => rw [highStep_content_none targets u pos _ hpc]
      | some cand =>
        rw [highStep_content_eq targets u pos _ cand hpc]
        refine patch_frame pos.ticker "target_high_eur" cand _ j ?_ ?_
        · rw [countM_congr _ _ _ hsh1]
          exact hMU _
        · intro i hi
          rw [tIdx_congr _ _ _ _ hsh1] at hi
          exact hj "target_high_eur" (by decide) i hi
    have f3 : (lowStep targets u pos
        (highStep targets u pos (priceStep prices u pos st))).content.get? j =
        (highStep targets u pos (priceStep prices u pos st)).content.get? j := by
      cases hpc : lowCand targets u pos with
      | none => rw [lowStep_content_none targets u pos _ hpc]
      | some cand =>
        rw [lowStep_content_eq targets u pos _ cand hpc]
        refine patch_frame pos.ticker "target_low_eur" cand _ j ?_ ?_
        · rw [countM_congr _ _ _ hsh2]
          exact hMU _
        · intro i hi
          rw [tIdx_congr _ _ _ _ hsh2] at hi
          exact hj "target_low_eur" (by decide) i hi
    rw [f3, f2, f1]

/-- The position loop leaves every index outside the positions' match
indices unchanged. -/
theorem foldl_frame (prices : List (String × ℚ))
    (targets : Option (List (String × TargetData))) (u : ℚ) (j : Nat) :
    ∀ (l : List Position) (st : St),
      (∀ t', countM t' st.content ≤ 1) →
      (∀ q ∈ l, ∀ f ∈ fieldNames, ∀ i,
        tIdx q.ticker f st.content = some i → i ≠ j) →
      (l.foldl (processPos prices targets u) st).content.get? j =
        st.content.get? j := by
  intro l
  induction l with
  | nil => intro st _ _; rfl
  | cons q qs ih =>
    intro st hMU hj
    have hshq := shape_processPos prices targets u st q
    have h1 := processPos_frame prices targets u st q j hMU
      (hj q (List.mem_cons_self q qs))
    have hMU2 : ∀ t', countM t' (processPos prices targets u st q).content ≤ 1 :=
      fun t' => by rw [countM_congr t' _ _ hshq]; exact hMU t'
    have hj2 : ∀ q' ∈ qs, ∀ f ∈ fieldNames, ∀ i,
        tIdx q'.ticker f (processPos prices targets u st q).content = some i →
          i ≠ j := by
      intro q' hq' f hf i hi
      rw [tIdx_congr _ _ _ _ hshq] at hi
      exact hj q' (List.mem_cons_of_mem q hq') f hf i hi
    rw [List.foldl_cons, ih (processPos prices targets u st q) hMU2 hj2, h1]

/-- A position's loop body never touches a non-field token. -/
theorem processPos_nonfield (prices : List (String × ℚ))
    (targets : Option (List (String × TargetData))) (u : ℚ) (st : St)
    (pos : Position) (j : Nat) (tok : Token)
    (htok : ∀ n w, tok ≠ Token.field n w)
    (h : st.content.get? j = some tok) :
    (processPos prices targets u st pos).content.get? j = some tok := by
  unfold processPos
  by_cases hg : (pos.yahoo_ticker == "" || !pos.is_open) = true
  · rw [if_pos hg]; exact h
  · rw [if_neg hg]
    have h1 : (priceStep prices u pos st).content.get? j = some tok := by
      cases hpc : priceCand prices u pos with
      | none => rw [priceStep_content_none prices u pos st hpc]; exact h
      | some cand =>
        rw [priceStep_content_eq prices u pos st cand hpc]
        exact patch_preserve_nonfield pos.ticker _ cand st.content j tok htok h
    have h2 : (highStep targets u pos (priceStep prices u pos st)).content.get? j =
        some tok := by
      cases hpc : highCand targets u pos with
      | none => rw [highStep_content_none targets u pos _ hpc]; exact h1
      | some cand =>
        rw [highStep_content_eq targets u pos _ cand hpc]
        exact patch_preserve_nonfield pos.ticker _ cand _ j tok htok h1
    cases hpc : lowCand targets u pos with
    | none => rw [lowStep_content_none targets u pos _ hpc]; exact h2
    | some cand =>
      rw [lowStep_content_eq targets u pos _ cand hpc]
      exact patch_preserve_nonfield pos.ticker _ cand _ j tok htok h2

/-- The position loop never touches a non-field token. -/
theorem foldl_nonfield (prices : List (String × ℚ))
    (targets : Option (List (String × TargetData))) (u : ℚ) (j : Nat)
    (tok : Token) (htok : ∀ n w, tok ≠ Token.field n w) :
    ∀ (l : List Position) (st : St), st.content.get? j = some tok →
      (l.foldl (processPos prices targets u) st).content.get? j = some tok := by
  intro l
  induction l with
  | nil => intro st h; exact h
  | cons q qs ih =>
    intro st h
    rw [List.foldl_cons]
    exact ih _ (processPos_nonfield prices targets u st q j tok htok h)

/-- A field shape at an index comes from a field token. -/
theorem field_at_of_shape (l : List Token) (j : Nat) (f : String)
    (h : (l.map Token.shape).get? j = some (.field f)) :
    ∃ w, l.get? j = some (.field f w) := by
  rw [List.get?_map] at h
  rcases he : l.get? j with _ | tok
  · rw [he] at h; simp at h
  · rw [he] at h
    cases tok with
    | marker m => simp [Token.shape] at h
    | field n w =>
      have : n = f := by simpa [Token.shape] using h
      subst this
      exact ⟨w, rfl⟩
    | date s => simp [Token.shape] at h
    | text s => simp [Token.shape] at h

/-- The candidates of a position only use the three refreshable names. -/
theorem posCands_names (prices : List (String × ℚ))
    (targets : Option (List (String × TargetData))) (u : ℚ) (pos : Position)
    (f : String) (cand : ℚ) (h : (f, cand) ∈ posCands prices targets u pos) :
    f ∈ fieldNames := by
  rw [posCands] at h
  rcases List.mem_append.mp h with hph | hl
  · rcases List.mem_append.mp hph with hp | hh
    · obtain ⟨hf, -⟩ := posCands_elim f cand _ _ hp
      rw [hf]; decide
    · obtain ⟨hf, -⟩ := posCands_elim f cand _ _ hh
      rw [hf]; decide
  · obtain ⟨hf, -⟩ := posCands_elim f cand _ _ hl
    rw [hf]; decide

/-- After the loop, the token at each eligible position's match index is
within tolerance of its candidate — provided distinct positions target
distinct tokens. -/
theorem foldl_achieves (prices : List (String × ℚ))
    (targets : Option (List (String × TargetData))) (u : ℚ) :
    ∀ (l : List Position) (st : St),
      (∀ t', countM t' st.content ≤ 1) →
      l.Pairwise (fun p q => ∀ f ∈ fieldNames,
        tIdx p.ticker f st.content = none ∨ tIdx q.ticker f st.content = none ∨
        tIdx p.ticker f st.content ≠ tIdx q.ticker f st.content) →
      ∀ p ∈ l, (p.yahoo_ticker == "" || !p.is_open) = false →
      ∀ f cand, (f, cand) ∈ posCands prices targets u p →
      ∀ i, tIdx p.ticker f st.content = some i →
      ∃ w, (l.foldl (processPos prices targets u) st).content.get? i =
        some (.field f w) ∧ ¬(|w - cand| > monTol) := by
  intro l
  induction l with
  | nil => intro st _ _ p hp; exact absurd hp (List.not_mem_nil p)
  | cons q qs ih =>
    intro st hMU hpw p hp hel f cand hfc i hi
    have hshq := shape_processPos prices targets u st q
    have hMU2 : ∀ t', countM t' (processPos prices targets u st q).content ≤ 1 :=
      fun t' => by rw [countM_congr t' _ _ hshq]; exact hMU t'
    rcases List.mem_cons.mp hp with rfl | hp'
    · obtain ⟨w, hw, hd⟩ := processPos_achieves prices targets u st p f cand i
        hMU hel hfc hi
      refine ⟨w, ?_, hd⟩
      rw [List.foldl_cons]
      have hfr : ∀ q' ∈ qs, ∀ f' ∈ fieldNames, ∀ i',
          tIdx q'.ticker f' (processPos prices targets u st p).content = some i' →
            i' ≠ i := by
        intro q' hq' f' hf' i' hi'
        rw [tIdx_congr _ _ _ _ hshq] at hi'
        by_cases hff : f' = f
        · subst hff
          rcases (List.pairwise_cons.mp hpw).1 q' hq' f' hf' with hn | hn | hn
          · rw [hn] at hi
            exact absurd hi (by simp)
          · rw [hn] at hi'
            exact absurd hi' (by simp)
          · intro he
            subst he
            exact hn (hi.trans hi'.symm)
        · exact sIdx_name_ne q'.ticker f' p.ticker f
            (st.content.map Token.shape) i' i hi' hi hff
      rw [foldl_frame prices targets u i qs (processPos prices targets u st p)
        hMU2 hfr]
      exact hw
    · rw [List.foldl_cons]
      have hpw2 : qs.Pairwise (fun a b => ∀ f' ∈ fieldNames,
          tIdx a.ticker f' (processPos prices targets u st q).content = none ∨
          tIdx b.ticker f' (processPos prices targets u st q).content = none ∨
          tIdx a.ticker f' (processPos prices targets u st q).content ≠
            tIdx b.ticker f' (processPos prices targets u st q).content) := by
        refine List.Pairwise.imp ?_ (List.pairwise_cons.mp hpw).2
        intro a b hab f' hf'
        rw [tIdx_congr a.ticker f' _ _ hshq, tIdx_congr b.ticker f' _ _ hshq]
        exact hab f' hf'
      refine ih (processPos prices targets u st q) hMU2 hpw2 p hp' hel f cand hfc i ?_
      rw [tIdx_congr _ _ _ _ hshq]
      exact hi

/-! The settled-document lemma: a run on a settled document is the
identity. -/

/-- A within-tolerance search makes the patch a no-op. -/
theorem patchTF_none_of_fieldOk (t f : String) (cand : ℚ) (c : List Token)
    (hok : fieldOk c t f cand) : patchTF t f cand c = none := by
  unfold patchTF
  cases hs : searchTF t f c with
  | none => rfl
  | some old =>
    dsimp only
    rw [if_neg (hok old hs)]

/-- Overwriting dates with the date they already carry is the identity. -/
theorem dateStep_id (today : String) (l : List Token) (h : datesAre today l) :
    dateStep today l = l := by
  apply List.ext_get?
  intro j
  rw [dateStep, List.get?_map]
  cases he : l.get? j with
  | none => rfl
  | some tok =>
    cases tok with
    | marker m => rfl
    | field n w => rfl
    | date s =>
      have := h j s he
      subst this
      rfl
    | text s => rfl

/-- The loop body is the identity on a state whose content satisfies the
position's tolerance conditions. -/
theorem processPos_id (prices : List (String × ℚ))
    (targets : Option (List (String × TargetData))) (u : ℚ) (pos : Position)
    (c : List Token) (ch tc : List String)
    (hok : (pos.yahoo_ticker == "" || !pos.is_open) = false →
      ∀ fc ∈ posCands prices targets u pos, fieldOk c pos.ticker fc.1 fc.2) :
    processPos prices targets u ⟨c, ch, tc⟩ pos = ⟨c, ch, tc⟩ := by
  unfold processPos
  by_cases hg : (pos.yahoo_ticker == "" || !pos.is_open) = true
  · rw [if_pos hg]
  · rw [if_neg hg]
    have hel : (pos.yahoo_ticker == "" || !pos.is_open) = false := by
      simpa using hg
    have hok' := hok hel
    have h1 : priceStep prices u pos ⟨c, ch, tc⟩ = ⟨c, ch, tc⟩ := by
      cases hpc : priceCand prices u pos with
      | none => simp [priceStep, hpc]
      | some cand =>
        have hmem : ("current_price_eur", cand) ∈ posCands prices targets u pos := by
          rw [posCands]
          refine List.mem_append.mpr (Or.inl (List.mem_append.mpr (Or.inl ?_)))
          simp [hpc]
        have hn := patchTF_none_of_fieldOk pos.ticker "current_price_eur" cand c
          (hok' _ hmem)
        simp [priceStep, hpc, hn]
    have h2 : highStep targets u pos ⟨c, ch, tc⟩ = ⟨c, ch, tc⟩ := by
      cases hpc : highCand targets u pos with
      | none => simp [highStep, hpc]
      | some cand =>
        have hmem : ("target_high_eur", cand) ∈ posCands prices targets u pos := by
          rw [posCands]
          refine List.mem_append.mpr (Or.inl (List.mem_append.mpr (Or.inr ?_)))
          simp [hpc]
        have hn := patchTF_none_of_fieldOk pos.ticker "target_high_eur" cand c
          (hok' _ hmem)
        simp [highStep, hpc, hn]
    have h3 : lowStep targets u pos ⟨c, ch, tc⟩ = ⟨c, ch, tc⟩ := by
      cases hpc : lowCand targets u pos with
      | none => simp [lowStep, hpc]
      | some cand =>
        have hmem : ("target_low_eur", cand) ∈ posCands prices targets u pos := by
          rw [posCands]
          exact List.mem_append.mpr (Or.inr (by simp [hpc]))
        have hn := patchTF_none_of_fieldOk pos.ticker "target_low_eur" cand c
          (hok' _ hmem)
        simp [lowStep, hpc, hn]
    rw [h1, h2, h3]

/-- The loop is the identity when every eligible position is settled. -/
theorem foldl_id (prices : List (String × ℚ))
    (targets : Option (List (String × TargetData))) (u : ℚ) :
    ∀ (l : List Position) (c : List Token) (ch tc : List String),
      (∀ pos ∈ l, (pos.yahoo_ticker == "" || !pos.is_open) = false →
        ∀ fc ∈ posCands prices targets u pos, fieldOk c pos.ticker fc.1 fc.2) →
      l.foldl (processPos prices targets u) ⟨c, ch, tc⟩ = ⟨c, ch, tc⟩ := by
  intro l
  induction l with
  | nil => intro c ch tc _; rfl
  | cons q qs ih =>
    intro c ch tc h
    rw [List.foldl_cons, processPos_id prices targets u q c ch tc
      (h q (List.mem_cons_self q qs))]
    exact ih c ch tc fun pos hp => h pos (List.mem_cons_of_mem q hp)

/-- A run on a settled document changes nothing, reports nothing and writes
nothing. -/
theorem update_of_settled (doc : List Token) (positions : List Position)
    (prices : List (String × ℚ)) (u : ℚ)
    (targets : Option (List (String × TargetData))) (dry : Bool) (today : String)
    (hS : Settled positions prices targets u today doc) :
    update_yaml_file doc positions prices u targets dry today =
      ⟨doc, [], [], false⟩ := by
  have hrate : rateStep u doc = (doc, []) := by
    unfold rateStep
    cases hs : searchF "usd_to_eur" doc with
    | none => rfl
    | some old =>
      dsimp only
      rw [if_neg (hS.1 old hs)]
  have hdate : dateStep today doc = doc := dateStep_id today doc hS.2.1
  have hfold := foldl_id prices targets u positions doc [] []
    fun pos hp hel => hS.2.2 pos hp hel
  unfold update_yaml_file
  rw [hrate]
  dsimp only
  rw [hdate, hfold]
  simp

/-- C2 amended: applying the document update twice in sequence with the same
observation set yields a second run with zero change entries, unchanged text
and no write — provided every record marker is unique and distinct positions
target distinct field tokens (as they do when each open record's block
contains its own refreshable fields).  The counterexample shows the proviso
is necessary: two records sharing one field token through the cross-record
fallback make the second run report changes again. -/
theorem update_idempotent (doc : List Token) (positions : List Position)
    (prices : List (String × ℚ)) (u : ℚ)
    (targets : Option (List (String × TargetData))) (dry1 dry2 : Bool)
    (today : String)
    (hMU : markersUnique doc) (hdisj : patchDisjoint doc positions) :
    update_yaml_file
        (update_yaml_file doc positions prices u targets dry1 today).content
        positions prices u targets dry2 today =
      ⟨(update_yaml_file doc positions prices u targets dry1 today).content,
        [], [], false⟩ := by
  have hMUc : ∀ t', countM t' doc ≤ 1 := markersUnique_count doc hMU
  have hr1 : (update_yaml_file doc positions prices u targets dry1 today).content =
      (positions.foldl (processPos prices targets u)
        ⟨dateStep today (rateStep u doc).1, (rateStep u doc).2, []⟩).content := rfl
  -- the first run's text has the same shape as the original document
  have hrc : (rateStep u doc).1 = doc ∨
      (rateStep u doc).1 = subF "usd_to_eur" (roundTo 4 u) doc := by
    unfold rateStep
    cases hs : searchF "usd_to_eur" doc with
    | none => exact Or.inl rfl
    | some old =>
      dsimp only
      by_cases hd : |old - u| > rateTol
      · rw [if_pos hd]
        exact Or.inr rfl
      · rw [if_neg hd]
        exact Or.inl rfl
  have hshc1 : (rateStep u doc).1.map Token.shape = doc.map Token.shape := by
    rcases hrc with h | h
    · rw [h]
    · rw [h]
      exact shape_subF _ _ doc
  have hshc2 : (dateStep today (rateStep u doc).1).map Token.shape =
      doc.map Token.shape := (shape_dateStep today _).trans hshc1
  have hMUc2 : ∀ t', countM t' (dateStep today (rateStep u doc).1) ≤ 1 :=
    fun t' => by rw [countM_congr t' _ _ hshc2]; exact hMUc t'
  have hshr1 : (update_yaml_file doc positions prices u targets dry1 today).content.map
      Token.shape = doc.map Token.shape := by
    rw [hr1]
    exact (shape_foldl prices targets u positions _).trans hshc2
  apply update_of_settled
  refine ⟨?_, ?_, ?_⟩
  · -- the rate field the second run reads is within the rate tolerance
    intro old hold
    rw [searchF_bind, hshr1] at hold
    cases hj0 : shFGo "usd_to_eur" (doc.map Token.shape) with
    | none => rw [hj0] at hold; simp at hold
    | some j0 =>
      rw [hj0] at hold
      simp only [Option.some_bind] at hold
      obtain ⟨w, hw⟩ :=
        field_at_of_shape doc j0 "usd_to_eur" (shFGo_field _ _ _ hj0)
      have hc1 : ∃ w1, (rateStep u doc).1.get? j0 =
          some (.field "usd_to_eur" w1) ∧ ¬(|w1 - u| > rateTol) := by
        unfold rateStep
        cases hs : searchF "usd_to_eur" doc with
        | none =>
          rw [searchF_bind, hj0] at hs
          simp only [Option.some_bind, litAt_eq doc j0 _ w hw] at hs
          exact absurd hs (by simp)
        | some old0 =>
          have hval : old0 = w := by
            rw [searchF_bind, hj0] at hs
            simp only [Option.some_bind, litAt_eq doc j0 _ w hw] at hs
            exact (Option.some_inj.mp hs).symm
          dsimp only
          by_cases hd : |old0 - u| > rateTol
          · rw [if_pos hd]
            exact ⟨roundTo 4 u, subF_get?_eq "usd_to_eur" (roundTo 4 u) doc j0 w hw,
              roundTo4_ok u⟩
          · rw [if_neg hd]
            exact ⟨w, hw, hval ▸ hd⟩
      obtain ⟨w1, hw1, hok1⟩ := hc1
      have hw2 : (dateStep today (rateStep u doc).1).get? j0 =
          some (.field "usd_to_eur" w1) := dateStep_field today _ j0 _ w1 hw1
      have hfr : ∀ q ∈ positions, ∀ f ∈ fieldNames, ∀ i,
          tIdx q.ticker f (dateStep today (rateStep u doc).1) = some i → i ≠ j0 := by
        intro q hq f hf i hi
        have hi' : shTFGo q.ticker f false (doc.map Token.shape) = some i := by
          rw [tIdx, hshc2] at hi
          exact hi
        have e1 := shTFGo_field q.ticker f (doc.map Token.shape) false i hi'
        have e2 := shFGo_field "usd_to_eur" (doc.map Token.shape) j0 hj0
        refine idx_field_ne (doc.map Token.shape) i j0 f "usd_to_eur" e1 e2 ?_
        simp only [fieldNames, List.mem_cons] at hf
        rcases hf with rfl | rfl | rfl | hf
        · decide
        · decide
        · decide
        · exact absurd hf (List.not_mem_nil f)
      have hpres := foldl_frame prices targets u j0 positions
        ⟨dateStep today (rateStep u doc).1, (rateStep u doc).2, []⟩ hMUc2 hfr
      have hfin : (update_yaml_file doc positions prices u targets dry1 today).content.get? j0 =
          some (.field "usd_to_eur" w1) := by
        rw [hr1, hpres]
        exact hw2
      rw [litAt_eq _ j0 _ w1 hfin] at hold
      have : old = w1 := by simpa using hold.symm
      exact this ▸ hok1
  · -- all date tokens of the first run's text read today
    intro j s hjs
    have hda := datesAre_dateStep today (rateStep u doc).1
    have hshj : ((update_yaml_file doc positions prices u targets dry1 today).content.get? j).map
        Token.shape = ((dateStep today (rateStep u doc).1).get? j).map Token.shape := by
      rw [← List.get?_map, ← List.get?_map, hshr1, ← hshc2]
    rw [hjs] at hshj
    cases he : (dateStep today (rateStep u doc).1).get? j with
    | none => rw [he] at hshj; simp [Token.shape] at hshj
    | some tok =>
      rw [he] at hshj
      cases tok with
      | marker m => simp [Token.shape] at hshj
      | field n w => simp [Token.shape] at hshj
      | date s' =>
        have hs' : s' = today := hda j s' he
        rw [hs'] at he
        have hfwd := foldl_nonfield prices targets u j (Token.date today)
          (fun n w h => Token.noConfusion h) positions
          ⟨dateStep today (rateStep u doc).1, (rateStep u doc).2, []⟩ he
        rw [hr1, hfwd] at hjs
        have : Token.date today = Token.date s := by simpa using hjs
        cases this
        rfl
      | text s' => simp [Token.shape] at hshj
  · -- every eligible position's search lands within tolerance
    intro pos hp hel fc hfc
    rcases fc with ⟨f, cand⟩
    intro old hold
    cases hi : tIdx pos.ticker f (dateStep today (rateStep u doc).1) with
    | none =>
      have hnone : tIdx pos.ticker f
          (update_yaml_file doc positions prices u targets dry1 today).content = none := by
        rw [tIdx_congr _ _ _ _ (hshr1.trans hshc2.symm)]
        exact hi
      rw [searchTF_eq_none _ _ _ hnone] at hold
      simp at hold
    | some i =>
      have hdisj2 : positions.Pairwise (fun p q => ∀ f' ∈ fieldNames,
          tIdx p.ticker f' (dateStep today (rateStep u doc).1) = none ∨
          tIdx q.ticker f' (dateStep today (rateStep u doc).1) = none ∨
          tIdx p.ticker f' (dateStep today (rateStep u doc).1) ≠
            tIdx q.ticker f' (dateStep today (rateStep u doc).1)) := by
        refine List.Pairwise.imp ?_ hdisj
        intro a b hab f' hf'
        have ha : tIdx a.ticker f' (dateStep today (rateStep u doc).1) =
            sIdx a.ticker f' (doc.map Token.shape) := by
          rw [tIdx, hshc2]
          rfl
        have hb : tIdx b.ticker f' (dateStep today (rateStep u doc).1) =
            sIdx b.ticker f' (doc.map Token.shape) := by
          rw [tIdx, hshc2]
          rfl
        rw [ha, hb]
        exact hab f' hf'
      obtain ⟨w, hw, hd⟩ := foldl_achieves prices targets u positions
        ⟨dateStep today (rateStep u doc).1, (rateStep u doc).2, []⟩ hMUc2 hdisj2
        pos hp hel f cand hfc i hi
      have hir1 : tIdx pos.ticker f
          (update_yaml_file doc positions prices u targets dry1 today).content = some i := by
        rw [tIdx_congr _ _ _ _ (hshr1.trans hshc2.symm)]
        exact hi
      have hfin : (update_yaml_file doc positions prices u targets dry1 today).content.get? i =
          some (.field f w) := by
        rw [hr1]
        exact hw
      rw [searchTF_eq_litAt _ _ _ i hir1, litAt_eq _ i f w hfin] at hold
      have : old = w := by simpa using hold.symm
      exact this ▸ hd

/-- Witness: on the two-record document whose blocks each contain their own
price field, a second identical run is the empty no-write run. -/
theorem update_idempotent_wit :
    update_yaml_file
        (update_yaml_file docFB [posF, posB] [("YF", 100), ("YB", 100)]
          (17/20) none false "d").content
        [posF, posB] [("YF", 100), ("YB", 100)] (17/20) none false "d" =
      ⟨(update_yaml_file docFB [posF, posB] [("YF", 100), ("YB", 100)]
          (17/20) none false "d").content, [], [], false⟩ :=
  update_idempotent docFB [posF, posB] [("YF", 100), ("YB", 100)] (17/20) none
    false false "d"
    (by
      have h : (markersOf docFB).Nodup := by decide
      exact h)
    (by
      have h : [posF, posB].Pairwise (fun p q => ∀ f ∈ fieldNames,
          sIdx p.ticker f (docFB.map Token.shape) = none ∨
          sIdx q.ticker f (docFB.map Token.shape) = none ∨
          sIdx p.ticker f (docFB.map Token.shape) ≠
            sIdx q.ticker f (docFB.map Token.shape)) := by decide
      exact h)

end UpdatePrices
